import Mathlib

/-!
Verification development for the modulo-n-tools library.

The library has two layers:
* plain modular arithmetic over signed integers (`reduce`, `add_mod`,
  `mul_mod`, `pow_mod` in `src/lib.rs`), embedded here over `ℤ` with
  Rust's `%` on signed values modelled by `Int.tmod` (truncated
  remainder, the semantics of Rust's `%`), and the non-negative generic
  exponent type `U` modelled by `ℕ`;
* a Montgomery multiplication engine (`src/montgomery.rs`) with three
  variants: `Montgomery64` (`u64` values, `u128` intermediates,
  radix `R = 2^64`), `Montgomery32` (`u32`/`u64`, `R = 2^32`), and a
  generic `Montgomery<T>` for arbitrary-precision signed integers,
  embedded over `ℕ` (fixed-width, with every wrapping operation made
  explicit as `% 2^64` / `% 2^32` / `% 2^128`) and over `ℤ` (generic).

Loops are embedded as fuel-indexed structural recursions; every fuel
argument is chosen at the call site so that it strictly dominates the
number of iterations the Rust loop performs, which keeps all definitions
kernel-computable.
-/

namespace ModuloTools

/-! ## Plain modular arithmetic  (src/lib.rs)

The generic value type `T` is instantiated at `ℤ` (a signed
arbitrary-precision integer, e.g. `BigInt`), so Rust's `%` is truncated
remainder `Int.tmod`.  The generic exponent type `U` is instantiated at
`ℕ`: exponents are documented non-negative. -/

/-- Embedding of `reduce` from src/lib.rs: one corrective step, subtract
`modulo` if `a >= modulo`, else add `modulo` if `a <= -modulo`. -/
def reduce (a modulo : ℤ) : ℤ :=
  if modulo ≤ a then a - modulo
  else if a ≤ -modulo then a + modulo
  else a

/-- Embedding of `add_mod` from src/lib.rs: exact sum then `reduce`. -/
def add_mod (a b modulo : ℤ) : ℤ := reduce (a + b) modulo

/-- Embedding of `sub_mod` from src/lib.rs: exact difference then `reduce`. -/
def sub_mod (a b modulo : ℤ) : ℤ := reduce (a - b) modulo

/-- Embedding of `mul_mod` from src/lib.rs: `&(a * b) % modulo`, with
Rust's signed `%` being truncated remainder. -/
def mul_mod (a b modulo : ℤ) : ℤ := Int.tmod (a * b) modulo

/-- The `while b > c0` loop of `pow_mod` from src/lib.rs, fuel-indexed.
Each iteration: if the low bit of `b` is set, `y = mul_mod(x, y)`; then
`x = mul_mod(x, x)` and `b >>= 1`. -/
def powModLoop (modulo : ℤ) : ℕ → ℤ → ℤ → ℕ → ℤ
  | 0, _, y, _ => y
  | f + 1, x, y, b =>
    if 0 < b then
      powModLoop modulo f (mul_mod x x modulo)
        (if b % 2 = 1 then mul_mod x y modulo else y) (b / 2)
    else y

/-- Embedding of `pow_mod` from src/lib.rs: binary exponentiation,
least-significant exponent bit first, accumulator seeded with the
unreduced constant `1`.  Fuel `b + 1` strictly dominates the number of
halving steps of `b`. -/
def pow_mod (a : ℤ) (b : ℕ) (modulo : ℤ) : ℤ :=
  powModLoop modulo (b + 1) a 1 b

/-! ## Montgomery64  (src/montgomery.rs, `R = 2^64`)

`u64` values are embedded as natural numbers `< 2^64`; every Rust
wrapping operation (`wrapping_mul`, `wrapping_add`) is an explicit
`% 2^64`.  The `u128` sum `x + n * t` in `reduction` is embedded with
the release-profile semantics of Rust integer overflow, i.e. it wraps
modulo `2^128`; `reductionChecked` below embeds the debug-profile
semantics, where the same overflow panics. -/

structure Montgomery64 where
  n : ℕ
  np : ℕ
  r2 : ℕ

/-- The `loop` of `Montgomery64::calc_n_prime`: Newton–Hensel doubling
step `nx = n.wrapping_mul(x).wrapping_add(2).wrapping_mul(x)` with the
precision counter `b` doubled each round, returning once `2*b ≥ s`.
Fuel-indexed; fuel `s + 1` dominates the iteration count since `b`
starts at 3 and doubles. -/
def calcNPrimeLoop64 (n s : ℕ) : ℕ → ℕ → ℕ → ℕ
  | 0, x, _ => x
  | f + 1, x, b =>
    let nx := (n * x % 2 ^ 64 + 2) % 2 ^ 64 * x % 2 ^ 64
    if s ≤ 2 * b then nx else calcNPrimeLoop64 n s f nx (2 * b)

/-- Embedding of `Montgomery64::calc_n_prime`.  The seed is
`(!n + 1) % 8`: two's-complement negation of the `u64` value `n`
(`!n = 2^64 - 1 - n`, and the `+ 1` wraps at `2^64`), reduced mod 8. -/
def Montgomery64.calc_n_prime (n s : ℕ) : ℕ :=
  calcNPrimeLoop64 n s (s + 1) ((2 ^ 64 - 1 - n + 1) % 2 ^ 64 % 8) 3

/-- Embedding of `Montgomery64::new`: `np` from `calc_n_prime(n, 64)`,
`r2 = u128::MAX % n + 1`. -/
def Montgomery64.new (n : ℕ) : Montgomery64 :=
  { n := n
    np := Montgomery64.calc_n_prime n 64
    r2 := (2 ^ 128 - 1) % n + 1 }

/-- Embedding of `Montgomery64::reduction` (REDC) with release-profile
overflow semantics: `t2 = (x & u64::MAX).wrapping_mul(np)`, the `u128`
sum `x + n * t2` wraps modulo `2^128`, `>> 64`, then one conditional
subtraction of `n`. -/
def Montgomery64.reduction (m : Montgomery64) (x : ℕ) : ℕ :=
  let t1 := x % 2 ^ 64
  let t2 := t1 * m.np % 2 ^ 64
  let t3 := (x + m.n * t2) % 2 ^ 128
  let t4 := t3 / 2 ^ 64
  if m.n ≤ t4 then t4 - m.n else t4

/-- Embedding of `Montgomery64::reduction` with debug-profile overflow
semantics: the `u128` addition `x + n * t2` panics (`none`) when its
mathematical value does not fit in `u128`. -/
def Montgomery64.reductionChecked (m : Montgomery64) (x : ℕ) : Option ℕ :=
  let t1 := x % 2 ^ 64
  let t2 := t1 * m.np % 2 ^ 64
  if 2 ^ 128 ≤ x + m.n * t2 then none
  else
    let t4 := (x + m.n * t2) / 2 ^ 64
    some (if m.n ≤ t4 then t4 - m.n else t4)

/-- Embedding of `Montgomery64::convert`: `reduction(x * r2)` (the
`u128` product of two `u64` values never wraps). -/
def Montgomery64.convert (m : Montgomery64) (x : ℕ) : ℕ :=
  m.reduction (x * m.r2)

/-- The `while p > c0` loop of the trait method
`MontgomeryOperation::powmod`, parametric in the reduction function
(the trait's `self.reduction`), for the unsigned fixed-width variants:
if the low bit of `p` is set, `y = reduction(x * y)`; then
`x = reduction(x * x)` and `p >>= 1`.  Fuel-indexed with fuel `p + 1`. -/
def powmodLoopN (red : ℕ → ℕ) : ℕ → ℕ → ℕ → ℕ → ℕ
  | 0, _, y, _ => y
  | f + 1, x, y, p =>
    if 0 < p then
      powmodLoopN red f (red (x * x))
        (if p % 2 = 1 then red (x * y) else y) (p / 2)
    else y

/-- Embedding of `powmod` for `Montgomery64`: convert the base and the
constant 1 to Montgomery form, run the square-and-multiply loop in
Montgomery form, and apply one final reduction. -/
def Montgomery64.powmod (m : Montgomery64) (a p : ℕ) : ℕ :=
  m.reduction (powmodLoopN m.reduction (p + 1) (m.convert a) (m.convert 1) p)

/-! ## Montgomery32  (src/montgomery.rs, `R = 2^32`)

Identical structure with `u32` values and `u64` intermediates. -/

structure Montgomery32 where
  n : ℕ
  np : ℕ
  r2 : ℕ

/-- The `loop` of `Montgomery32::calc_n_prime`, wrapping at `2^32`. -/
def calcNPrimeLoop32 (n s : ℕ) : ℕ → ℕ → ℕ → ℕ
  | 0, x, _ => x
  | f + 1, x, b =>
    let nx := (n * x % 2 ^ 32 + 2) % 2 ^ 32 * x % 2 ^ 32
    if s ≤ 2 * b then nx else calcNPrimeLoop32 n s f nx (2 * b)

/-- Embedding of `Montgomery32::calc_n_prime`. -/
def Montgomery32.calc_n_prime (n s : ℕ) : ℕ :=
  calcNPrimeLoop32 n s (s + 1) ((2 ^ 32 - 1 - n + 1) % 2 ^ 32 % 8) 3

/-- Embedding of `Montgomery32::new`: `r2 = u64::MAX % n + 1`. -/
def Montgomery32.new (n : ℕ) : Montgomery32 :=
  { n := n
    np := Montgomery32.calc_n_prime n 32
    r2 := (2 ^ 64 - 1) % n + 1 }

/-- Embedding of `Montgomery32::reduction` with release-profile
overflow semantics (`u64` sum wraps modulo `2^64`). -/
def Montgomery32.reduction (m : Montgomery32) (x : ℕ) : ℕ :=
  let t1 := x % 2 ^ 32
  let t2 := t1 * m.np % 2 ^ 32
  let t3 := (x + m.n * t2) % 2 ^ 64
  let t4 := t3 / 2 ^ 32
  if m.n ≤ t4 then t4 - m.n else t4

/-- Embedding of `Montgomery32::reduction` with debug-profile overflow
semantics: the `u64` addition panics (`none`) on overflow. -/
def Montgomery32.reductionChecked (m : Montgomery32) (x : ℕ) : Option ℕ :=
  let t1 := x % 2 ^ 32
  let t2 := t1 * m.np % 2 ^ 32
  if 2 ^ 64 ≤ x + m.n * t2 then none
  else
    let t4 := (x + m.n * t2) / 2 ^ 32
    some (if m.n ≤ t4 then t4 - m.n else t4)

/-- Embedding of `Montgomery32::convert`. -/
def Montgomery32.convert (m : Montgomery32) (x : ℕ) : ℕ :=
  m.reduction (x * m.r2)

/-- Embedding of `powmod` for `Montgomery32`. -/
def Montgomery32.powmod (m : Montgomery32) (a p : ℕ) : ℕ :=
  m.reduction (powmodLoopN m.reduction (p + 1) (m.convert a) (m.convert 1) p)

/-! ## Generic `Montgomery<T>`  (src/montgomery.rs)

The generic value type `T` (an arbitrary-precision signed integer such
as `BigInt`) is embedded as `ℤ`.  Bitwise AND is `Int.land`
(two's-complement semantics, exactly the behaviour of `BigInt`), the
shifts `<< k` / `>> k` are `* 2^k` / `/ 2^k` (Lean's `ℤ` division is
Euclidean, which agrees with the arithmetic right shift / floor
division for the non-negative operands and positive shifts that occur
here), and `%` is Euclidean remainder (equal to Rust's `%` on the
non-negative operands that occur here). -/

structure Montgomery where
  n : ℤ
  np : ℤ
  s : ℕ
  rm : ℤ
  r2 : ℤ

/-- First loop of `bits`: `while n > (1 << 64) { n >>= 64; b += 64 }`,
fuel-indexed, returning the shifted value and the count so far. -/
def bitsLoop64 : ℕ → ℤ → ℕ → ℤ × ℕ
  | 0, n, b => (n, b)
  | f + 1, n, b =>
    if 2 ^ 64 < n then bitsLoop64 f (n / 2 ^ 64) (b + 64) else (n, b)

/-- Second loop of `bits`: `while n > 0 { n >>= 1; b += 1 }`,
fuel-indexed. -/
def bitsLoop1 : ℕ → ℤ → ℕ → ℕ
  | 0, _, b => b
  | f + 1, n, b =>
    if 0 < n then bitsLoop1 f (n / 2) (b + 1) else b

/-- Embedding of `bits` from src/montgomery.rs: shift right in 64-bit
chunks while the value exceeds `2^64`, then in single bits while it is
positive, counting the shifts.  Fuel `n.toNat + 1` dominates both
iteration counts since each step at least halves a positive value. -/
def bits (n : ℤ) : ℕ :=
  let nb := bitsLoop64 (n.toNat + 1) n 0
  bitsLoop1 (n.toNat + 1) nb.1 nb.2

/-- The `loop` of the generic `Montgomery::<T>::calc_n_prime`:
`nx = ((x * n + 2) * x) & rm`, precision counter doubled, return once
`2*b ≥ s`.  Fuel-indexed. -/
def calcNPrimeLoopG (n : ℤ) (s : ℕ) (rm : ℤ) : ℕ → ℤ → ℕ → ℤ
  | 0, x, _ => x
  | f + 1, x, b =>
    let nx := Int.land ((x * n + 2) * x) rm
    if s ≤ 2 * b then nx else calcNPrimeLoopG n s rm f nx (2 * b)

/-- Embedding of the generic `Montgomery::<T>::calc_n_prime`: seed
`x = (-n) & 7` (two's-complement AND on the signed type), mask
`rm = (1 << s) - 1`, then the doubling loop with every step masked. -/
def Montgomery.calc_n_prime (n : ℤ) (s : ℕ) : ℤ :=
  calcNPrimeLoopG n s (2 ^ s - 1) (s + 1) (Int.land (-n) 7) 3

/-- Embedding of the generic `Montgomery::<T>::new`: `s = bits(n)`,
`rm = (1 << s) - 1`, `r2 = (1 << 2*s) % n`, `np = calc_n_prime(n, s)`. -/
def Montgomery.new (n : ℤ) : Montgomery :=
  { n := n
    np := Montgomery.calc_n_prime n (bits n)
    s := bits n
    rm := 2 ^ bits n - 1
    r2 := 2 ^ (2 * bits n) % n }

/-- Embedding of the generic `Montgomery::<T>::reduction`:
`t = ((((x & rm) * np) & rm) * n + x) >> s`, then one conditional
subtraction of `n`.  No wrapping: `T` is arbitrary-precision. -/
def Montgomery.reduction (m : Montgomery) (x : ℤ) : ℤ :=
  let t1 := Int.land x m.rm
  let t2 := Int.land (t1 * m.np) m.rm
  let t3 := (t2 * m.n + x) / 2 ^ m.s
  if m.n ≤ t3 then t3 - m.n else t3

/-- Embedding of the generic `Montgomery::<T>::convert`:
`reduction(x * r2)`. -/
def Montgomery.convert (m : Montgomery) (x : ℤ) : ℤ :=
  m.reduction (x * m.r2)

/-- The trait `powmod` loop for the generic variant (`U = T`, embedded
as `ℤ`), parametric in the reduction function. -/
def powmodLoopZ (red : ℤ → ℤ) : ℕ → ℤ → ℤ → ℕ → ℤ
  | 0, _, y, _ => y
  | f + 1, x, y, p =>
    if 0 < p then
      powmodLoopZ red f (red (x * x))
        (if p % 2 = 1 then red (x * y) else y) (p / 2)
    else y

/-- Embedding of `powmod` for the generic `Montgomery<T>`. -/
def Montgomery.powmod (m : Montgomery) (a : ℤ) (p : ℕ) : ℤ :=
  m.reduction (powmodLoopZ m.reduction (p + 1) (m.convert a) (m.convert 1) p)

/-! ## Properties of the plain modular arithmetic layer -/

/-- Rust's signed `%` (truncated remainder) is congruent to its
dividend. -/
theorem tmod_modEq (x m : ℤ) : Int.tmod x m ≡ x [ZMOD m] := by
  rw [Int.modEq_iff_dvd]
  have h := Int.tmod_add_tdiv x m
  exact ⟨x.tdiv m, by linarith [h]⟩

/-- `mul_mod` computes a value congruent to the product. -/
theorem mul_mod_modEq (a b m : ℤ) : mul_mod a b m ≡ a * b [ZMOD m] :=
  tmod_modEq (a * b) m

/-- Invariant of the `pow_mod` loop: with enough fuel it returns a
value congruent to `x ^ b * y`. -/
theorem powModLoop_modEq (m : ℤ) :
    ∀ f b x y, b < f → powModLoop m f x y b ≡ x ^ b * y [ZMOD m] := by
  intro f
  induction f with
  | zero => omega
  | succ f ih =>
    intro b x y hb
    by_cases h0 : 0 < b
    · have hdm : 2 * (b / 2) + b % 2 = b := Nat.div_add_mod b 2
      have hrec := ih (b / 2) (mul_mod x x m) (if b % 2 = 1 then mul_mod x y m else y)
        (by omega)
      rw [powModLoop, if_pos h0]
      refine hrec.trans ?_
      have hxx : (mul_mod x x m) ^ (b / 2) ≡ (x * x) ^ (b / 2) [ZMOD m] :=
        (mul_mod_modEq x x m).pow _
      rcases Nat.even_or_odd b with he | ho
      · have hb2 : b % 2 = 0 := Nat.even_iff.mp he
        rw [if_neg (by omega)]
        refine (hxx.mul_right y).trans ?_
        have : (x * x) ^ (b / 2) * y = x ^ b * y := by
          rw [show x * x = x ^ 2 by ring, ← pow_mul,
            show 2 * (b / 2) = b by omega]
        rw [this]
      · have hb2 : b % 2 = 1 := Nat.odd_iff.mp ho
        rw [if_pos hb2]
        refine ((hxx.mul (mul_mod_modEq x y m))).trans ?_
        have : (x * x) ^ (b / 2) * (x * y) = x ^ b * y := by
          rw [show x * x = x ^ 2 by ring, ← pow_mul]
          rw [show x ^ b = x ^ (2 * (b / 2)) * x ^ 1 by
            rw [← pow_add]; congr 1; omega]
          ring
        rw [this]
    · have hb : b = 0 := by omega
      subst hb
      simp [powModLoop]

/-- `pow_mod` computes a value congruent to `a ^ b`. -/
theorem pow_mod_modEq (a : ℤ) (b : ℕ) (m : ℤ) :
    pow_mod a b m ≡ a ^ b [ZMOD m] := by
  have h := powModLoop_modEq m (b + 1) b a 1 (by omega)
  simpa [pow_mod] using h

/-- The `pow_mod` loop with exponent `0` returns the accumulator
untouched, whatever the fuel. -/
theorem powModLoop_zero (m : ℤ) (f : ℕ) (x y : ℤ) :
    powModLoop m f x y 0 = y := by
  cases f <;> simp [powModLoop]

/-- For a positive exponent and non-negative operands the `pow_mod`
loop returns a value in `[0, m)`: the last set bit of the exponent
routes the accumulator through a final `mul_mod`. -/
theorem powModLoop_range (m : ℤ) (hm : 0 < m) :
    ∀ f b x y, b < f → 0 ≤ x → 0 ≤ y → 1 ≤ b →
      0 ≤ powModLoop m f x y b ∧ powModLoop m f x y b < m := by
  intro f
  induction f with
  | zero => omega
  | succ f ih =>
    intro b x y hb hx hy h1
    have h0 : 0 < b := h1
    rw [powModLoop, if_pos h0]
    have hxy : mul_mod x y m = x * y % m :=
      Int.tmod_eq_emod (by positivity) hm.le
    by_cases hb1 : b = 1
    · subst hb1
      norm_num
      rw [powModLoop_zero, hxy]
      exact ⟨Int.emod_nonneg _ (by omega), Int.emod_lt_of_pos _ hm⟩
    · have hxx : mul_mod x x m = x * x % m :=
        Int.tmod_eq_emod (by positivity) hm.le
      refine ih (b / 2) (mul_mod x x m) (if b % 2 = 1 then mul_mod x y m else y)
        (by omega) (by rw [hxx]; exact Int.emod_nonneg _ (by omega)) ?_ (by omega)
      split
      · rw [hxy]; exact Int.emod_nonneg _ (by omega)
      · exact hy

/-- With a non-negative base, positive modulus and positive exponent,
`pow_mod` returns exactly the Euclidean remainder `a ^ b % m`. -/
theorem pow_mod_eq (a : ℤ) (b : ℕ) (m : ℤ) (hm : 0 < m) (ha : 0 ≤ a)
    (hb : 1 ≤ b) : pow_mod a b m = a ^ b % m := by
  have h1 : pow_mod a b m % m = a ^ b % m := pow_mod_modEq a b m
  have h2 := powModLoop_range m hm (b + 1) b a 1 (by omega) ha (by norm_num) hb
  rw [pow_mod] at *
  rw [← Int.emod_eq_of_lt h2.1 h2.2, h1]

/-- Fermat's little theorem over `ℤ`, in the form `a ^ p ≡ a`. -/
theorem int_pow_prime_modEq (a : ℤ) (p : ℕ) (hp : p.Prime) :
    a ^ p ≡ a [ZMOD (p : ℤ)] := by
  haveI : Fact p.Prime := ⟨hp⟩
  have h : ((a ^ p : ℤ) : ZMod p) = ((a : ℤ) : ZMod p) := by
    push_cast
    exact ZMod.pow_card (a : ZMod p)
  exact (ZMod.intCast_eq_intCast_iff _ _ _).mp h

/-! ## Newton–Hensel lifting for `calc_n_prime` -/

/-- One Hensel doubling step over `ℕ`: if `n * x ≡ -1` holds to `k`
bits, any value congruent to `(n*x + 2) * x` modulo `2^w` satisfies the
same to `min (2*k) w` bits, because
`n * ((n*x + 2) * x) + 1 = (n*x + 1)^2`. -/
theorem hensel_step_nat (w k n x nx : ℕ)
    (hnx : nx ≡ (n * x + 2) * x [MOD 2 ^ w]) (h : 2 ^ k ∣ n * x + 1) :
    2 ^ min (2 * k) w ∣ n * nx + 1 := by
  have hsq : 2 ^ (2 * k) ∣ n * ((n * x + 2) * x) + 1 := by
    have hid : n * ((n * x + 2) * x) + 1 = (n * x + 1) ^ 2 := by ring
    rw [hid, mul_comm 2 k, pow_mul]
    exact pow_dvd_pow_of_dvd h 2
  have hmod : n * nx + 1 ≡ n * ((n * x + 2) * x) + 1 [MOD 2 ^ min (2 * k) w] := by
    refine Nat.ModEq.of_dvd (pow_dvd_pow 2 (min_le_right _ _)) ?_
    exact (hnx.mul_left n).add_right 1
  have hdvd : 2 ^ min (2 * k) w ∣ n * ((n * x + 2) * x) + 1 :=
    dvd_trans (pow_dvd_pow 2 (min_le_left _ _)) hsq
  exact Nat.modEq_zero_iff_dvd.mp (hmod.trans (Nat.modEq_zero_iff_dvd.mpr hdvd))

/-- The 3-bit seed: for odd `n`, `n * ((8 - n % 8) % 8) ≡ -1 (mod 8)`. -/
theorem seed_core (n : ℕ) (ho : n % 2 = 1) :
    8 ∣ n * ((8 - n % 8) % 8) + 1 := by
  have h8 : n % 8 = 1 ∨ n % 8 = 3 ∨ n % 8 = 5 ∨ n % 8 = 7 := by omega
  have hmod : n * ((8 - n % 8) % 8) + 1 ≡ n % 8 * ((8 - n % 8) % 8) + 1 [MOD 8] :=
    ((Nat.mod_modEq n 8).symm.mul_right _).add_right 1
  refine Nat.modEq_zero_iff_dvd.mp (hmod.trans ?_)
  rcases h8 with h | h | h | h <;> rw [h] <;> decide

/-- The wrapped doubling step of the 64-bit loop is congruent to the
exact step modulo `2^64`. -/
theorem step64_modEq (n x : ℕ) :
    (n * x % 2 ^ 64 + 2) % 2 ^ 64 * x % 2 ^ 64 ≡ (n * x + 2) * x [MOD 2 ^ 64] := by
  have h1 : n * x % 2 ^ 64 + 2 ≡ n * x + 2 [MOD 2 ^ 64] :=
    (Nat.mod_modEq _ _).add_right 2
  have h2 : (n * x % 2 ^ 64 + 2) % 2 ^ 64 ≡ n * x + 2 [MOD 2 ^ 64] :=
    (Nat.mod_modEq _ _).trans h1
  exact (Nat.mod_modEq _ _).trans (h2.mul_right x)

/-- The wrapped doubling step of the 32-bit loop is congruent to the
exact step modulo `2^32`. -/
theorem step32_modEq (n x : ℕ) :
    (n * x % 2 ^ 32 + 2) % 2 ^ 32 * x % 2 ^ 32 ≡ (n * x + 2) * x [MOD 2 ^ 32] := by
  have h1 : n * x % 2 ^ 32 + 2 ≡ n * x + 2 [MOD 2 ^ 32] :=
    (Nat.mod_modEq _ _).add_right 2
  have h2 : (n * x % 2 ^ 32 + 2) % 2 ^ 32 ≡ n * x + 2 [MOD 2 ^ 32] :=
    (Nat.mod_modEq _ _).trans h1
  exact (Nat.mod_modEq _ _).trans (h2.mul_right x)

/-- Loop invariant for the 64-bit `calc_n_prime` loop: if `x` inverts
`-n` to `min b s` bits and the fuel dominates the remaining doublings,
the returned value inverts `-n` to `s` bits (any target `s ≤ 64`). -/
theorem calcNPrimeLoop64_spec (n s : ℕ) (hs : s ≤ 64) :
    ∀ f b x, 0 < b → s ≤ b * 2 ^ f → 2 ^ min b s ∣ n * x + 1 →
      2 ^ s ∣ n * calcNPrimeLoop64 n s f x b + 1 := by
  intro f
  induction f with
  | zero =>
    intro b x hb hfuel hinv
    rw [calcNPrimeLoop64]
    rwa [min_eq_right (by simpa using hfuel)] at hinv
  | succ f ih =>
    intro b x hb hfuel hinv
    rw [calcNPrimeLoop64]
    have hstep : 2 ^ min (2 * min b s) 64 ∣
        n * ((n * x % 2 ^ 64 + 2) % 2 ^ 64 * x % 2 ^ 64) + 1 :=
      hensel_step_nat 64 (min b s) n x _ (step64_modEq n x) hinv
    by_cases hg : s ≤ 2 * b
    · rw [if_pos hg]
      exact dvd_trans (pow_dvd_pow 2 (by omega)) hstep
    · rw [if_neg hg]
      refine ih (2 * b) _ (by omega)
        (by rw [show 2 * b * 2 ^ f = b * 2 ^ (f + 1) by rw [pow_succ]; ring]; exact hfuel) ?_
      exact dvd_trans (pow_dvd_pow 2 (by omega)) hstep

/-- Loop invariant for the 32-bit `calc_n_prime` loop. -/
theorem calcNPrimeLoop32_spec (n s : ℕ) (hs : s ≤ 32) :
    ∀ f b x, 0 < b → s ≤ b * 2 ^ f → 2 ^ min b s ∣ n * x + 1 →
      2 ^ s ∣ n * calcNPrimeLoop32 n s f x b + 1 := by
  intro f
  induction f with
  | zero =>
    intro b x hb hfuel hinv
    rw [calcNPrimeLoop32]
    rwa [min_eq_right (by simpa using hfuel)] at hinv
  | succ f ih =>
    intro b x hb hfuel hinv
    rw [calcNPrimeLoop32]
    have hstep : 2 ^ min (2 * min b s) 32 ∣
        n * ((n * x % 2 ^ 32 + 2) % 2 ^ 32 * x % 2 ^ 32) + 1 :=
      hensel_step_nat 32 (min b s) n x _ (step32_modEq n x) hinv
    by_cases hg : s ≤ 2 * b
    · rw [if_pos hg]
      exact dvd_trans (pow_dvd_pow 2 (by omega)) hstep
    · rw [if_neg hg]
      refine ih (2 * b) _ (by omega)
        (by rw [show 2 * b * 2 ^ f = b * 2 ^ (f + 1) by rw [pow_succ]; ring]; exact hfuel) ?_
      exact dvd_trans (pow_dvd_pow 2 (by omega)) hstep

/-- For odd `n < 2^64`, `Montgomery64::calc_n_prime(n, 64)` returns
`np` with `n * np ≡ -1 (mod 2^64)`. -/
theorem calc_n_prime64_spec (n : ℕ) (ho : n % 2 = 1) (hlt : n < 2 ^ 64) :
    2 ^ 64 ∣ n * Montgomery64.calc_n_prime n 64 + 1 := by
  rw [Montgomery64.calc_n_prime]
  refine calcNPrimeLoop64_spec n 64 le_rfl 65 3 _ (by norm_num) (by norm_num) ?_
  have hseed : (2 ^ 64 - 1 - n + 1) % 2 ^ 64 % 8 = (8 - n % 8) % 8 := by
    have h64 : (2 : ℕ) ^ 64 = 18446744073709551616 := by norm_num
    rw [h64] at hlt ⊢
    omega
  rw [hseed, show min 3 64 = 3 by norm_num, show (2 : ℕ) ^ 3 = 8 by norm_num]
  exact seed_core n ho

/-- For odd `n < 2^32`, `Montgomery32::calc_n_prime(n, 32)` returns
`np` with `n * np ≡ -1 (mod 2^32)`. -/
theorem calc_n_prime32_spec (n : ℕ) (ho : n % 2 = 1) (hlt : n < 2 ^ 32) :
    2 ^ 32 ∣ n * Montgomery32.calc_n_prime n 32 + 1 := by
  rw [Montgomery32.calc_n_prime]
  refine calcNPrimeLoop32_spec n 32 le_rfl 33 3 _ (by norm_num) (by norm_num) ?_
  have hseed : (2 ^ 32 - 1 - n + 1) % 2 ^ 32 % 8 = (8 - n % 8) % 8 := by
    have h32 : (2 : ℕ) ^ 32 = 4294967296 := by norm_num
    rw [h32] at hlt ⊢
    omega
  rw [hseed, show min 3 32 = 3 by norm_num, show (2 : ℕ) ^ 3 = 8 by norm_num]
  exact seed_core n ho

/-- The 64-bit `calc_n_prime` loop always returns a reduced (`< 2^64`)
value when given positive fuel. -/
theorem calcNPrimeLoop64_lt (n s : ℕ) :
    ∀ f x b, calcNPrimeLoop64 n s (f + 1) x b < 2 ^ 64 := by
  intro f
  induction f with
  | zero =>
    intro x b
    rw [calcNPrimeLoop64]
    split
    · exact Nat.mod_lt _ (by norm_num)
    · rw [calcNPrimeLoop64]
      exact Nat.mod_lt _ (by norm_num)
  | succ f ih =>
    intro x b
    rw [calcNPrimeLoop64]
    split
    · exact Nat.mod_lt _ (by norm_num)
    · exact ih _ _

/-- The 32-bit `calc_n_prime` loop always returns a reduced (`< 2^32`)
value when given positive fuel. -/
theorem calcNPrimeLoop32_lt (n s : ℕ) :
    ∀ f x b, calcNPrimeLoop32 n s (f + 1) x b < 2 ^ 32 := by
  intro f
  induction f with
  | zero =>
    intro x b
    rw [calcNPrimeLoop32]
    split
    · exact Nat.mod_lt _ (by norm_num)
    · rw [calcNPrimeLoop32]
      exact Nat.mod_lt _ (by norm_num)
  | succ f ih =>
    intro x b
    rw [calcNPrimeLoop32]
    split
    · exact Nat.mod_lt _ (by norm_num)
    · exact ih _ _

/-! ## The REDC core -/

/-- Odd numbers are coprime to any power of two. -/
theorem odd_coprime_two_pow (n k : ℕ) (ho : n % 2 = 1) :
    Nat.Coprime n (2 ^ k) := by
  have h2 : Nat.Coprime 2 n :=
    (Nat.Prime.coprime_iff_not_dvd Nat.prime_two).mpr
      (fun hd => by obtain ⟨c, hc⟩ := hd; omega)
  exact (h2.pow_left k).symm

/-- Core correctness of one REDC step, over `ℕ`, for any radix `R`:
with `t = (x mod R) * np mod R` and `u = (x + n*t) / R`, the division
is exact, `u < 2n`, and after at most one subtraction of `n` the result
lies in `[0, n)` and satisfies `r * R ≡ x (mod n)`. -/
theorem redc_spec (R n np x t u r : ℕ) (hn : 0 < n) (hnR : n < R)
    (hnp : R ∣ n * np + 1) (hx : x < n * R)
    (ht : t = x % R * np % R) (hu : u = (x + n * t) / R)
    (hr : r = if n ≤ u then u - n else u) :
    R ∣ x + n * t ∧ u < 2 * n ∧ r < n ∧ r * R ≡ x [MOD n] := by
  have hR : 0 < R := by omega
  have htlt : t < R := by rw [ht]; exact Nat.mod_lt _ hR
  have hdvd : R ∣ x + n * t := by
    have h1 : t ≡ x * np [MOD R] := by
      rw [ht]
      exact (Nat.mod_modEq _ _).trans ((Nat.mod_modEq x R).mul_right np)
    have h2 : x + n * t ≡ x + n * (x * np) [MOD R] := (h1.mul_left n).add_left x
    have h3 : x + n * (x * np) = x * (n * np + 1) := by ring
    have h4 : R ∣ x * (n * np + 1) := Dvd.dvd.mul_left hnp x
    exact Nat.modEq_zero_iff_dvd.mp
      (h2.trans (h3 ▸ Nat.modEq_zero_iff_dvd.mpr h4))
  have huR : u * R = x + n * t := by
    rw [hu, Nat.div_mul_cancel hdvd]
  have hu2 : u < 2 * n := by
    rw [hu, Nat.div_lt_iff_lt_mul hR]
    have h6 : n * t < n * R := mul_lt_mul_of_pos_left htlt hn
    calc x + n * t < n * R + n * R := by omega
    _ = 2 * n * R := by ring
  have hnt : n * t ≡ 0 [MOD n] := Nat.modEq_zero_iff_dvd.mpr ⟨t, rfl⟩
  have key : u * R ≡ x [MOD n] := by
    rw [huR]
    calc x + n * t ≡ x + 0 [MOD n] := (Nat.ModEq.refl x).add hnt
    _ = x := by ring
  refine ⟨hdvd, hu2, ?_, ?_⟩
  · rw [hr]; split <;> omega
  · rw [hr]
    split
    · next h =>
      have h7 : (u - n) * R + n * R = u * R := by
        rw [← Nat.add_mul]; congr 1; omega
      have hnR0 : n * R ≡ 0 [MOD n] := Nat.modEq_zero_iff_dvd.mpr ⟨R, rfl⟩
      have h8 : (u - n) * R ≡ (u - n) * R + n * R [MOD n] := by
        calc (u - n) * R = (u - n) * R + 0 := by ring
        _ ≡ (u - n) * R + n * R [MOD n] := (Nat.ModEq.refl _).add hnR0.symm
      exact h8.trans (by rw [h7]; exact key)
    · next h => exact key

/-- The `r2` constant of `Montgomery64::new` is at most `n` and
congruent to `2^128 = R^2` modulo `n`. -/
theorem r2_64_spec (n : ℕ) (hn : 0 < n) :
    (2 ^ 128 - 1) % n + 1 ≤ n ∧ (2 ^ 128 - 1) % n + 1 ≡ 2 ^ 128 [MOD n] := by
  have h1 : (2 ^ 128 - 1) % n < n := Nat.mod_lt _ hn
  refine ⟨by omega, ?_⟩
  have h2 : (2 ^ 128 - 1) % n + 1 ≡ 2 ^ 128 - 1 + 1 [MOD n] :=
    (Nat.mod_modEq _ _).add_right 1
  refine h2.trans ?_
  rw [show (2 : ℕ) ^ 128 - 1 + 1 = 2 ^ 128 by omega]

/-- The `r2` constant of `Montgomery32::new` is at most `n` and
congruent to `2^64 = R^2` modulo `n`. -/
theorem r2_32_spec (n : ℕ) (hn : 0 < n) :
    (2 ^ 64 - 1) % n + 1 ≤ n ∧ (2 ^ 64 - 1) % n + 1 ≡ 2 ^ 64 [MOD n] := by
  have h1 : (2 ^ 64 - 1) % n < n := Nat.mod_lt _ hn
  refine ⟨by omega, ?_⟩
  have h2 : (2 ^ 64 - 1) % n + 1 ≡ 2 ^ 64 - 1 + 1 [MOD n] :=
    (Nat.mod_modEq _ _).add_right 1
  refine h2.trans ?_
  rw [show (2 : ℕ) ^ 64 - 1 + 1 = 2 ^ 64 by omega]

/-- For odd `n > 1` the constant `(2^k - 1) % n + 1` is strictly below
`n`: equality would force `n` to divide `2^k`. -/
theorem r2_lt_of_odd (n k : ℕ) (ho : n % 2 = 1) (h2 : 1 < n) :
    (2 ^ k - 1) % n + 1 < n := by
  have hn : 0 < n := by omega
  have h1 : (2 ^ k - 1) % n < n := Nat.mod_lt _ hn
  by_contra hcon
  have he : (2 ^ k - 1) % n = n - 1 := by omega
  have hq := Nat.div_add_mod (2 ^ k - 1) n
  have hpos : 1 ≤ 2 ^ k := Nat.one_le_two_pow
  have hd : n ∣ 2 ^ k := by
    refine ⟨(2 ^ k - 1) / n + 1, ?_⟩
    rw [Nat.mul_add, Nat.mul_one]
    omega
  have hco : Nat.Coprime n (2 ^ k) := odd_coprime_two_pow n k ho
  have := Nat.Coprime.eq_one_of_dvd hco hd
  omega

/-- Specification of `Montgomery64::reduction` in the overflow-free
regime: for a valid context and `x < n * R` whose REDC intermediate
fits in `u128`, the result is the Montgomery quotient of `x`. -/
theorem reduction64_spec (m : Montgomery64) (x : ℕ)
    (hn : 0 < m.n) (hnR : m.n < 2 ^ 64)
    (hnp : 2 ^ 64 ∣ m.n * m.np + 1)
    (hx : x < m.n * 2 ^ 64)
    (hov : x + m.n * (x % 2 ^ 64 * m.np % 2 ^ 64) < 2 ^ 128) :
    m.reduction x < m.n ∧ m.reduction x * 2 ^ 64 ≡ x [MOD m.n] := by
  obtain ⟨-, -, h3, h4⟩ :=
    redc_spec (2 ^ 64) m.n m.np x _ _ _ hn hnR hnp hx rfl rfl rfl
  have hred : m.reduction x =
      (if m.n ≤ (x + m.n * (x % 2 ^ 64 * m.np % 2 ^ 64)) / 2 ^ 64
       then (x + m.n * (x % 2 ^ 64 * m.np % 2 ^ 64)) / 2 ^ 64 - m.n
       else (x + m.n * (x % 2 ^ 64 * m.np % 2 ^ 64)) / 2 ^ 64) := by
    simp only [Montgomery64.reduction]
    rw [Nat.mod_eq_of_lt hov]
  rw [hred]
  exact ⟨h3, h4⟩

/-- Specification of `Montgomery32::reduction` in the overflow-free
regime. -/
theorem reduction32_spec (m : Montgomery32) (x : ℕ)
    (hn : 0 < m.n) (hnR : m.n < 2 ^ 32)
    (hnp : 2 ^ 32 ∣ m.n * m.np + 1)
    (hx : x < m.n * 2 ^ 32)
    (hov : x + m.n * (x % 2 ^ 32 * m.np % 2 ^ 32) < 2 ^ 64) :
    m.reduction x < m.n ∧ m.reduction x * 2 ^ 32 ≡ x [MOD m.n] := by
  obtain ⟨-, -, h3, h4⟩ :=
    redc_spec (2 ^ 32) m.n m.np x _ _ _ hn hnR hnp hx rfl rfl rfl
  have hred : m.reduction x =
      (if m.n ≤ (x + m.n * (x % 2 ^ 32 * m.np % 2 ^ 32)) / 2 ^ 32
       then (x + m.n * (x % 2 ^ 32 * m.np % 2 ^ 32)) / 2 ^ 32 - m.n
       else (x + m.n * (x % 2 ^ 32 * m.np % 2 ^ 32)) / 2 ^ 32) := by
    simp only [Montgomery32.reduction]
    rw [Nat.mod_eq_of_lt hov]
  rw [hred]
  exact ⟨h3, h4⟩

/-- Invariant of the Montgomery `powmod` loop (fixed-width variants):
if `x` and `y` are the Montgomery forms of `xh` and `yh` and the
reduction function satisfies the REDC contract on products of reduced
values, the loop returns the Montgomery form of `xh ^ p * yh`. -/
theorem powmodLoopN_spec (n R : ℕ) (red : ℕ → ℕ)
    (hco : Nat.Coprime n R)
    (hred : ∀ w, w ≤ n * n → red w < n ∧ red w * R ≡ w [MOD n]) :
    ∀ f p x y xh yh, p < f → x < n → y < n →
      x ≡ xh * R [MOD n] → y ≡ yh * R [MOD n] →
      powmodLoopN red f x y p < n ∧
      powmodLoopN red f x y p ≡ xh ^ p * yh * R [MOD n] := by
  intro f
  induction f with
  | zero => omega
  | succ f ih =>
    intro p x y xh yh hp hx hy hxm hym
    by_cases h0 : 0 < p
    · rw [powmodLoopN, if_pos h0]
      have hxxb : x * x ≤ n * n := Nat.mul_le_mul hx.le hx.le
      have hxyb : x * y ≤ n * n := Nat.mul_le_mul hx.le hy.le
      have hsq := hred (x * x) hxxb
      have hx2 : red (x * x) ≡ xh * xh * R [MOD n] := by
        refine Nat.ModEq.cancel_right_of_coprime hco ?_
        refine hsq.2.trans ?_
        refine (hxm.mul hxm).trans ?_
        rw [show xh * R * (xh * R) = xh * xh * R * R by ring]
      have hy2b : (if p % 2 = 1 then red (x * y) else y) < n := by
        split
        · exact (hred _ hxyb).1
        · exact hy
      have hy2 : (if p % 2 = 1 then red (x * y) else y) ≡
          (if p % 2 = 1 then xh * yh else yh) * R [MOD n] := by
        by_cases hodd : p % 2 = 1
        · rw [if_pos hodd, if_pos hodd]
          refine Nat.ModEq.cancel_right_of_coprime hco ?_
          refine (hred _ hxyb).2.trans ?_
          refine (hxm.mul hym).trans ?_
          rw [show xh * R * (yh * R) = xh * yh * R * R by ring]
        · rw [if_neg hodd, if_neg hodd]
          exact hym
      have hrec := ih (p / 2) _ _ (xh * xh) (if p % 2 = 1 then xh * yh else yh)
        (by omega) hsq.1 hy2b hx2 hy2
      refine ⟨hrec.1, hrec.2.trans ?_⟩
      by_cases hodd : p % 2 = 1
      · rw [if_pos hodd]
        obtain ⟨k, hk⟩ : ∃ k, p = 2 * k + 1 := ⟨p / 2, by omega⟩
        have hk2 : p / 2 = k := by omega
        rw [hk2, hk]
        have heq : (xh * xh) ^ k * (xh * yh) * R = xh ^ (2 * k + 1) * yh * R := by
          ring
        rw [heq]
      · rw [if_neg hodd]
        obtain ⟨k, hk⟩ : ∃ k, p = 2 * k := ⟨p / 2, by omega⟩
        have hk2 : p / 2 = k := by omega
        rw [hk2, hk]
        have heq : (xh * xh) ^ k * yh * R = xh ^ (2 * k) * yh * R := by
          ring
        rw [heq]
    · have hp0 : p = 0 := by omega
      subst hp0
      rw [powmodLoopN, if_neg h0]
      exact ⟨hy, by simpa using hym⟩

/-- Correctness of `Montgomery64::powmod` for odd `n < 2^63`, the range
in which the `u128` REDC intermediate can never overflow. -/
theorem powmod64_correct (n a p : ℕ) (ho : n % 2 = 1) (hlt : n < 2 ^ 63)
    (ha : a < n) : (Montgomery64.new n).powmod a p = a ^ p % n := by
  have hn : 0 < n := by omega
  have h63 : (2 : ℕ) ^ 63 < 2 ^ 64 := by norm_num
  have hnR : n < 2 ^ 64 := by omega
  set m := Montgomery64.new n with hm
  have hmn : m.n = n := rfl
  have hnp : 2 ^ 64 ∣ m.n * m.np + 1 := calc_n_prime64_spec n ho hnR
  have hr2 := r2_64_spec n hn
  have hr2n : m.r2 ≤ n := hr2.1
  have hco : Nat.Coprime n (2 ^ 64) := odd_coprime_two_pow n 64 ho
  have hred : ∀ w, w ≤ n * n →
      m.reduction w < n ∧ m.reduction w * 2 ^ 64 ≡ w [MOD n] := by
    intro w hw
    have hnn : n * n < n * 2 ^ 64 := mul_lt_mul_of_pos_left hnR hn
    have ht2 : w % 2 ^ 64 * m.np % 2 ^ 64 < 2 ^ 64 := Nat.mod_lt _ (by norm_num)
    have hb1 : n * n < 2 ^ 126 := by
      calc n * n < 2 ^ 63 * 2 ^ 63 :=
        mul_lt_mul'' hlt hlt (Nat.zero_le _) (Nat.zero_le _)
      _ = 2 ^ 126 := by norm_num
    have hb2 : n * (w % 2 ^ 64 * m.np % 2 ^ 64) < 2 ^ 127 := by
      calc n * (w % 2 ^ 64 * m.np % 2 ^ 64) < 2 ^ 63 * 2 ^ 64 :=
        mul_lt_mul'' hlt ht2 (Nat.zero_le _) (Nat.zero_le _)
      _ = 2 ^ 127 := by norm_num
    have hb3 : (2 : ℕ) ^ 126 + 2 ^ 127 < 2 ^ 128 := by norm_num
    exact reduction64_spec m w hn hnR hnp (by rw [hmn]; omega) (by rw [hmn]; omega)
  have hconva := hred (a * m.r2) (Nat.mul_le_mul ha.le hr2n)
  have hconv1 := hred (1 * m.r2)
    (by rw [one_mul]; exact le_trans hr2n (Nat.le_mul_of_pos_left n hn))
  have hca : m.convert a = m.reduction (a * m.r2) := rfl
  have hc1 : m.convert 1 = m.reduction (1 * m.r2) := rfl
  have hcam : m.convert a ≡ a * 2 ^ 64 [MOD n] := by
    rw [hca]
    refine Nat.ModEq.cancel_right_of_coprime hco ?_
    refine hconva.2.trans ?_
    refine (hr2.2.mul_left a).trans ?_
    rw [show a * 2 ^ 128 = a * 2 ^ 64 * 2 ^ 64 by ring]
  have hc1m : m.convert 1 ≡ 1 * 2 ^ 64 [MOD n] := by
    rw [hc1]
    refine Nat.ModEq.cancel_right_of_coprime hco ?_
    refine hconv1.2.trans ?_
    refine (hr2.2.mul_left 1).trans ?_
    rw [show 1 * 2 ^ 128 = 1 * 2 ^ 64 * 2 ^ 64 by ring]
  have hloop := powmodLoopN_spec n (2 ^ 64) m.reduction hco hred (p + 1) p
    (m.convert a) (m.convert 1) a 1 (by omega)
    (by rw [hca]; exact hconva.1) (by rw [hc1]; exact hconv1.1) hcam hc1m
  have hfin := hred (powmodLoopN m.reduction (p + 1) (m.convert a) (m.convert 1) p)
    (le_trans hloop.1.le (Nat.le_mul_of_pos_left n hn))
  have hpw : m.powmod a p =
      m.reduction (powmodLoopN m.reduction (p + 1) (m.convert a) (m.convert 1) p) :=
    rfl
  have hres : m.powmod a p < n := by rw [hpw]; exact hfin.1
  have hfinal : m.powmod a p ≡ a ^ p [MOD n] := by
    rw [hpw]
    refine Nat.ModEq.cancel_right_of_coprime hco ?_
    refine hfin.2.trans ?_
    refine hloop.2.trans ?_
    rw [show a ^ p * 1 * 2 ^ 64 = a ^ p * 2 ^ 64 by ring]
  rw [← Nat.mod_eq_of_lt hres]
  exact hfinal

/-- Correctness of `Montgomery32::powmod` for odd `n < 2^31`, the range
in which the `u64` REDC intermediate can never overflow. -/
theorem powmod32_correct (n a p : ℕ) (ho : n % 2 = 1) (hlt : n < 2 ^ 31)
    (ha : a < n) : (Montgomery32.new n).powmod a p = a ^ p % n := by
  have hn : 0 < n := by omega
  have h31 : (2 : ℕ) ^ 31 < 2 ^ 32 := by norm_num
  have hnR : n < 2 ^ 32 := by omega
  set m := Montgomery32.new n with hm
  have hmn : m.n = n := rfl
  have hnp : 2 ^ 32 ∣ m.n * m.np + 1 := calc_n_prime32_spec n ho hnR
  have hr2 := r2_32_spec n hn
  have hr2n : m.r2 ≤ n := hr2.1
  have hco : Nat.Coprime n (2 ^ 32) := odd_coprime_two_pow n 32 ho
  have hred : ∀ w, w ≤ n * n →
      m.reduction w < n ∧ m.reduction w * 2 ^ 32 ≡ w [MOD n] := by
    intro w hw
    have hnn : n * n < n * 2 ^ 32 := mul_lt_mul_of_pos_left hnR hn
    have ht2 : w % 2 ^ 32 * m.np % 2 ^ 32 < 2 ^ 32 := Nat.mod_lt _ (by norm_num)
    have hb1 : n * n < 2 ^ 62 := by
      calc n * n < 2 ^ 31 * 2 ^ 31 :=
        mul_lt_mul'' hlt hlt (Nat.zero_le _) (Nat.zero_le _)
      _ = 2 ^ 62 := by norm_num
    have hb2 : n * (w % 2 ^ 32 * m.np % 2 ^ 32) < 2 ^ 63 := by
      calc n * (w % 2 ^ 32 * m.np % 2 ^ 32) < 2 ^ 31 * 2 ^ 32 :=
        mul_lt_mul'' hlt ht2 (Nat.zero_le _) (Nat.zero_le _)
      _ = 2 ^ 63 := by norm_num
    have hb3 : (2 : ℕ) ^ 62 + 2 ^ 63 < 2 ^ 64 := by norm_num
    exact reduction32_spec m w hn hnR hnp (by rw [hmn]; omega) (by rw [hmn]; omega)
  have hconva := hred (a * m.r2) (Nat.mul_le_mul ha.le hr2n)
  have hconv1 := hred (1 * m.r2)
    (by rw [one_mul]; exact le_trans hr2n (Nat.le_mul_of_pos_left n hn))
  have hca : m.convert a = m.reduction (a * m.r2) := rfl
  have hc1 : m.convert 1 = m.reduction (1 * m.r2) := rfl
  have hcam : m.convert a ≡ a * 2 ^ 32 [MOD n] := by
    rw [hca]
    refine Nat.ModEq.cancel_right_of_coprime hco ?_
    refine hconva.2.trans ?_
    refine (hr2.2.mul_left a).trans ?_
    rw [show a * 2 ^ 64 = a * 2 ^ 32 * 2 ^ 32 by ring]
  have hc1m : m.convert 1 ≡ 1 * 2 ^ 32 [MOD n] := by
    rw [hc1]
    refine Nat.ModEq.cancel_right_of_coprime hco ?_
    refine hconv1.2.trans ?_
    refine (hr2.2.mul_left 1).trans ?_
    rw [show 1 * 2 ^ 64 = 1 * 2 ^ 32 * 2 ^ 32 by ring]
  have hloop := powmodLoopN_spec n (2 ^ 32) m.reduction hco hred (p + 1) p
    (m.convert a) (m.convert 1) a 1 (by omega)
    (by rw [hca]; exact hconva.1) (by rw [hc1]; exact hconv1.1) hcam hc1m
  have hfin := hred (powmodLoopN m.reduction (p + 1) (m.convert a) (m.convert 1) p)
    (le_trans hloop.1.le (Nat.le_mul_of_pos_left n hn))
  have hpw : m.powmod a p =
      m.reduction (powmodLoopN m.reduction (p + 1) (m.convert a) (m.convert 1) p) :=
    rfl
  have hres : m.powmod a p < n := by rw [hpw]; exact hfin.1
  have hfinal : m.powmod a p ≡ a ^ p [MOD n] := by
    rw [hpw]
    refine Nat.ModEq.cancel_right_of_coprime hco ?_
    refine hfin.2.trans ?_
    refine hloop.2.trans ?_
    rw [show a ^ p * 1 * 2 ^ 32 = a ^ p * 2 ^ 32 by ring]
  rw [← Nat.mod_eq_of_lt hres]
  exact hfinal

/-! ## Bitwise bridge lemmas for the generic variant -/

/-- Masking a non-negative integer with `2^s - 1` is reduction modulo
`2^s`. -/
theorem int_land_mask (x : ℤ) (s : ℕ) (hx : 0 ≤ x) :
    Int.land x (2 ^ s - 1) = x % 2 ^ s := by
  obtain ⟨a, rfl⟩ := Int.eq_ofNat_of_zero_le hx
  have h1 : ((2 : ℤ) ^ s - 1) = ((2 ^ s - 1 : ℕ) : ℤ) := by
    push_cast [Nat.one_le_two_pow]
    ring
  rw [h1]
  have h2 : Int.land (a : ℤ) ((2 ^ s - 1 : ℕ) : ℤ) = ((a &&& (2 ^ s - 1) : ℕ) : ℤ) :=
    rfl
  rw [h2, Nat.and_pow_two_sub_one_eq_mod]
  push_cast
  rfl

/-- `Nat.ldiff 7 m` keeps the low three bits of the complement of `m`. -/
theorem ldiff_seven (m : ℕ) : Nat.ldiff 7 m = 7 - m % 8 := by
  apply Nat.eq_of_testBit_eq
  intro k
  rw [Nat.testBit_ldiff]
  rcases lt_or_ge k 3 with hk | hk
  · have hm : m.testBit k = (m % 8).testBit k := by
      rw [show (8 : ℕ) = 2 ^ 3 by norm_num, Nat.testBit_mod_two_pow]
      simp [hk]
    rw [hm]
    have h8 : m % 8 < 8 := Nat.mod_lt _ (by norm_num)
    have hcases : m % 8 = 0 ∨ m % 8 = 1 ∨ m % 8 = 2 ∨ m % 8 = 3 ∨ m % 8 = 4 ∨
        m % 8 = 5 ∨ m % 8 = 6 ∨ m % 8 = 7 := by omega
    rcases hcases with h | h | h | h | h | h | h | h <;> rw [h] <;>
      interval_cases k <;> decide
  · have h7 : (7 : ℕ).testBit k = false :=
      Nat.testBit_lt_two_pow
        (lt_of_lt_of_le (by norm_num) (Nat.pow_le_pow_right (by norm_num) hk))
    have h72 : (7 - m % 8).testBit k = false :=
      Nat.testBit_lt_two_pow
        (lt_of_lt_of_le (by omega) (Nat.pow_le_pow_right (by norm_num) hk))
    rw [h7, h72]
    rfl

/-- The generic seed `(-n) & 7` equals `(-n) mod 8` for positive `n`. -/
theorem int_land_neg_seven (n : ℕ) (hn : 0 < n) :
    Int.land (-(n : ℤ)) 7 = (((8 - n % 8) % 8 : ℕ) : ℤ) := by
  obtain ⟨m, rfl⟩ : ∃ m, n = m + 1 := ⟨n - 1, by omega⟩
  have hneg : (-(↑(m + 1) : ℤ)) = Int.negSucc m := by
    rw [Int.negSucc_eq]
    push_cast
    ring
  rw [hneg]
  have h2 : Int.land (Int.negSucc m) (7 : ℤ) = ((Nat.ldiff 7 m : ℕ) : ℤ) := rfl
  rw [h2, ldiff_seven]
  congr 1
  omega

/-- The generic 3-bit seed satisfies `n * seed ≡ -1 (mod 8)` for odd
`n`. -/
theorem seedG_spec (n : ℕ) (ho : n % 2 = 1) :
    (8 : ℤ) ∣ (n : ℤ) * Int.land (-(n : ℤ)) 7 + 1 := by
  rw [int_land_neg_seven n (by omega)]
  exact_mod_cast seed_core n ho

/-! ## The bit-length function `bits` -/

/-- Invariant of the single-bit loop of `bits`: with enough fuel the
result `r` satisfies `n < 2 ^ (r - b)`. -/
theorem bitsLoop1_bound : ∀ f (n : ℤ) b, 0 ≤ n → n < 2 ^ f →
    b ≤ bitsLoop1 f n b ∧ n < 2 ^ (bitsLoop1 f n b - b) := by
  intro f
  induction f with
  | zero =>
    intro n b h0 hf
    rw [bitsLoop1]
    norm_num at hf
    refine ⟨le_refl b, ?_⟩
    simpa using hf
  | succ f ih =>
    intro n b h0 hf
    rw [bitsLoop1]
    split
    · next hpos =>
      have hdiv : n / 2 < 2 ^ f := by
        rw [Int.ediv_lt_iff_lt_mul (by norm_num : (0 : ℤ) < 2)]
        calc n < 2 ^ (f + 1) := hf
        _ = 2 ^ f * 2 := by ring
      have hrec := ih (n / 2) (b + 1) (Int.ediv_nonneg h0 (by norm_num)) hdiv
      refine ⟨by omega, ?_⟩
      have h1 : n ≤ 2 * (n / 2) + 1 := by omega
      have h2 := hrec.2
      have h3 := hrec.1
      have h4 : (2 : ℤ) * 2 ^ (bitsLoop1 f (n / 2) (b + 1) - (b + 1)) =
          2 ^ (bitsLoop1 f (n / 2) (b + 1) - b) := by
        rw [← pow_succ']
        congr 1
        omega
      calc n ≤ 2 * (n / 2) + 1 := h1
      _ < 2 * 2 ^ (bitsLoop1 f (n / 2) (b + 1) - (b + 1)) := by omega
      _ = 2 ^ (bitsLoop1 f (n / 2) (b + 1) - b) := h4
    · next hpos =>
      refine ⟨le_refl b, ?_⟩
      simp only [Nat.sub_self, pow_zero]
      omega

/-- Invariant of the 64-bit-chunk loop of `bits`: the pair `(n', b')`
returned satisfies `n' ≥ 0`, `b' ≥ b`, `n' ≤ n` and
`n < 2 ^ (b' - b) * (n' + 1)`. -/
theorem bitsLoop64_bound : ∀ f (n : ℤ) b, 0 ≤ n →
    0 ≤ (bitsLoop64 f n b).1 ∧ (bitsLoop64 f n b).1 ≤ n ∧
    b ≤ (bitsLoop64 f n b).2 ∧
    n < 2 ^ ((bitsLoop64 f n b).2 - b) * ((bitsLoop64 f n b).1 + 1) := by
  intro f
  induction f with
  | zero =>
    intro n b h0
    rw [bitsLoop64]
    exact ⟨h0, le_refl n, le_refl b, by simp [lt_add_one n]⟩
  | succ f ih =>
    intro n b h0
    rw [bitsLoop64]
    split
    · next hpos =>
      have hd0 : 0 ≤ n / 2 ^ 64 := Int.ediv_nonneg h0 (by positivity)
      have hrec := ih (n / 2 ^ 64) (b + 64) hd0
      obtain ⟨r0, r1, r2, r3⟩ := hrec
      refine ⟨r0, ?_, by omega, ?_⟩
      · calc (bitsLoop64 f (n / 2 ^ 64) (b + 64)).1 ≤ n / 2 ^ 64 := r1
        _ ≤ n := Int.ediv_le_self _ h0
      · have h1 : n < 2 ^ 64 * (n / 2 ^ 64 + 1) := by omega
        have h4 : n / 2 ^ 64 + 1 ≤
            2 ^ ((bitsLoop64 f (n / 2 ^ 64) (b + 64)).2 - (b + 64)) *
              ((bitsLoop64 f (n / 2 ^ 64) (b + 64)).1 + 1) := r3
        have h5 : (2 : ℤ) ^ 64 *
            (2 ^ ((bitsLoop64 f (n / 2 ^ 64) (b + 64)).2 - (b + 64)) *
              ((bitsLoop64 f (n / 2 ^ 64) (b + 64)).1 + 1)) =
            2 ^ ((bitsLoop64 f (n / 2 ^ 64) (b + 64)).2 - b) *
              ((bitsLoop64 f (n / 2 ^ 64) (b + 64)).1 + 1) := by
          rw [← mul_assoc, ← pow_add]
          congr 2
          omega
        calc n < 2 ^ 64 * (n / 2 ^ 64 + 1) := h1
        _ ≤ 2 ^ 64 * (2 ^ ((bitsLoop64 f (n / 2 ^ 64) (b + 64)).2 - (b + 64)) *
              ((bitsLoop64 f (n / 2 ^ 64) (b + 64)).1 + 1)) := by
            refine mul_le_mul_of_nonneg_left h4 (by positivity)
        _ = _ := h5
    · next hpos =>
      exact ⟨h0, le_refl n, le_refl b, by simp [lt_add_one n]⟩

/-- For non-negative `n`, `bits n` is large enough: `n < 2 ^ bits n`. -/
theorem bits_spec (n : ℤ) (h0 : 0 ≤ n) : n < 2 ^ bits n := by
  rw [bits]
  obtain ⟨w0, w1, w2, w3⟩ := bitsLoop64_bound (n.toNat + 1) n 0 h0
  set q := bitsLoop64 (n.toNat + 1) n 0 with hq
  have hfuel : q.1 < 2 ^ (n.toNat + 1) := by
    have ha : n < 2 ^ (n.toNat + 1) := by
      have hb : (n.toNat : ℤ) < 2 ^ (n.toNat + 1) := by
        have hc : n.toNat < 2 ^ (n.toNat + 1) :=
          lt_of_lt_of_le (Nat.lt_two_pow _) (Nat.pow_le_pow_right (by norm_num) (by omega))
        exact_mod_cast hc
      omega
    omega
  obtain ⟨v1, v2⟩ := bitsLoop1_bound (n.toNat + 1) q.1 q.2 w0 hfuel
  have h5 : q.1 + 1 ≤ 2 ^ (bitsLoop1 (n.toNat + 1) q.1 q.2 - q.2) := v2
  have h6 : (2 : ℤ) ^ (q.2 - 0) * 2 ^ (bitsLoop1 (n.toNat + 1) q.1 q.2 - q.2) =
      2 ^ bitsLoop1 (n.toNat + 1) q.1 q.2 := by
    rw [← pow_add]
    congr 1
    omega
  calc n < 2 ^ (q.2 - 0) * (q.1 + 1) := w3
  _ ≤ 2 ^ (q.2 - 0) * 2 ^ (bitsLoop1 (n.toNat + 1) q.1 q.2 - q.2) :=
      mul_le_mul_of_nonneg_left h5 (by positivity)
  _ = 2 ^ bitsLoop1 (n.toNat + 1) q.1 q.2 := h6

/-! ## Hensel lifting for the generic `calc_n_prime` -/

/-- One Hensel doubling step over `ℤ`. -/
theorem hensel_step_int (s k : ℕ) (n x nx : ℤ)
    (hnx : nx ≡ (n * x + 2) * x [ZMOD 2 ^ s]) (h : (2 : ℤ) ^ k ∣ n * x + 1) :
    (2 : ℤ) ^ min (2 * k) s ∣ n * nx + 1 := by
  have hsq : (2 : ℤ) ^ (2 * k) ∣ n * ((n * x + 2) * x) + 1 := by
    have hid : n * ((n * x + 2) * x) + 1 = (n * x + 1) ^ 2 := by ring
    rw [hid, mul_comm 2 k, pow_mul]
    exact pow_dvd_pow_of_dvd h 2
  have hmod : n * nx + 1 ≡ n * ((n * x + 2) * x) + 1 [ZMOD 2 ^ min (2 * k) s] := by
    refine Int.ModEq.of_dvd (pow_dvd_pow 2 (min_le_right _ _)) ?_
    exact (hnx.mul_left n).add_right 1
  have hdvd : (2 : ℤ) ^ min (2 * k) s ∣ n * ((n * x + 2) * x) + 1 :=
    dvd_trans (pow_dvd_pow 2 (min_le_left _ _)) hsq
  exact Int.modEq_zero_iff_dvd.mp (hmod.trans (Int.modEq_zero_iff_dvd.mpr hdvd))

/-- Loop invariant for the generic `calc_n_prime` loop (mask
`rm = 2^s - 1`, every step reduced by the mask). -/
theorem calcNPrimeLoopG_spec (n : ℤ) (hn : 0 ≤ n) (s : ℕ) :
    ∀ f b x, 0 < b → s ≤ b * 2 ^ f → 0 ≤ x → (2 : ℤ) ^ min b s ∣ n * x + 1 →
      (2 : ℤ) ^ s ∣ n * calcNPrimeLoopG n s (2 ^ s - 1) f x b + 1 := by
  intro f
  induction f with
  | zero =>
    intro b x hb hfuel hx hinv
    rw [calcNPrimeLoopG]
    rwa [min_eq_right (by simpa using hfuel)] at hinv
  | succ f ih =>
    intro b x hb hfuel hx hinv
    rw [calcNPrimeLoopG]
    have hA : (0 : ℤ) ≤ (x * n + 2) * x := by positivity
    have hland : Int.land ((x * n + 2) * x) (2 ^ s - 1) = (x * n + 2) * x % 2 ^ s :=
      int_land_mask _ s hA
    have hstep : (2 : ℤ) ^ min (2 * min b s) s ∣
        n * Int.land ((x * n + 2) * x) (2 ^ s - 1) + 1 := by
      refine hensel_step_int s (min b s) n x _ ?_ hinv
      rw [hland, show (x * n + 2) * x = (n * x + 2) * x by ring]
      exact Int.mod_modEq _ _
    have hnxpos : (0 : ℤ) ≤ Int.land ((x * n + 2) * x) (2 ^ s - 1) := by
      rw [hland]
      exact Int.emod_nonneg _ (by positivity)
    by_cases hg : s ≤ 2 * b
    · rw [if_pos hg]
      exact dvd_trans (pow_dvd_pow 2 (by omega)) hstep
    · rw [if_neg hg]
      refine ih (2 * b) _ (by omega)
        (by rw [show 2 * b * 2 ^ f = b * 2 ^ (f + 1) by rw [pow_succ]; ring]
            exact hfuel) hnxpos ?_
      exact dvd_trans (pow_dvd_pow 2 (by omega)) hstep

/-- The generic `calc_n_prime` loop returns a masked value in
`[0, 2^s)` when given positive fuel (every step ends with `&= rm`). -/
theorem calcNPrimeLoopG_range (n : ℤ) (hn : 0 ≤ n) (s : ℕ) :
    ∀ f x b, 0 ≤ x →
      0 ≤ calcNPrimeLoopG n s (2 ^ s - 1) (f + 1) x b ∧
      calcNPrimeLoopG n s (2 ^ s - 1) (f + 1) x b < 2 ^ s := by
  intro f
  induction f with
  | zero =>
    intro x b hx
    have hA : (0 : ℤ) ≤ (x * n + 2) * x := by positivity
    rw [calcNPrimeLoopG]
    have hland : Int.land ((x * n + 2) * x) (2 ^ s - 1) = (x * n + 2) * x % 2 ^ s :=
      int_land_mask _ s hA
    split
    · rw [hland]
      exact ⟨Int.emod_nonneg _ (by positivity), Int.emod_lt_of_pos _ (by positivity)⟩
    · rw [calcNPrimeLoopG, hland]
      exact ⟨Int.emod_nonneg _ (by positivity), Int.emod_lt_of_pos _ (by positivity)⟩
  | succ f ih =>
    intro x b hx
    have hA : (0 : ℤ) ≤ (x * n + 2) * x := by positivity
    rw [calcNPrimeLoopG]
    have hland : Int.land ((x * n + 2) * x) (2 ^ s - 1) = (x * n + 2) * x % 2 ^ s :=
      int_land_mask _ s hA
    split
    · rw [hland]
      exact ⟨Int.emod_nonneg _ (by positivity), Int.emod_lt_of_pos _ (by positivity)⟩
    · refine ih _ _ ?_
      rw [hland]
      exact Int.emod_nonneg _ (by positivity)

/-- Specification of the generic `Montgomery::<T>::calc_n_prime`: for
odd positive `n` and any `s`, the result is in `[0, 2^s)` and inverts
`-n` modulo `2^s`. -/
theorem calc_n_primeG_spec (n : ℤ) (ho : n % 2 = 1) (hn : 0 < n) (s : ℕ) :
    0 ≤ Montgomery.calc_n_prime n s ∧ Montgomery.calc_n_prime n s < 2 ^ s ∧
    (2 : ℤ) ^ s ∣ n * Montgomery.calc_n_prime n s + 1 := by
  obtain ⟨nn, rfl⟩ := Int.eq_ofNat_of_zero_le hn.le
  have hnn : 0 < nn := by exact_mod_cast hn
  have honn : nn % 2 = 1 := by omega
  have hseed0 : (0 : ℤ) ≤ Int.land (-(nn : ℤ)) 7 := by
    rw [int_land_neg_seven nn hnn]
    positivity
  have hseed : (8 : ℤ) ∣ (nn : ℤ) * Int.land (-(nn : ℤ)) 7 + 1 := seedG_spec nn honn
  have hrange := calcNPrimeLoopG_range (nn : ℤ) (by positivity) s (s + 1 - 1)
    (Int.land (-(nn : ℤ)) 7) 3 hseed0
  rw [Montgomery.calc_n_prime]
  refine ⟨?_, ?_, ?_⟩
  · exact hrange.1
  · exact hrange.2
  · refine calcNPrimeLoopG_spec (nn : ℤ) (by positivity) s (s + 1) 3 _
      (by norm_num) ?_ hseed0 ?_
    · have hs : s < 2 ^ s := Nat.lt_two_pow s
      have h2 : (2 : ℕ) ^ s ≤ 2 ^ (s + 1) := Nat.pow_le_pow_right (by norm_num) (by omega)
      omega
    · refine dvd_trans (pow_dvd_pow 2 (by omega : min 3 s ≤ 3)) ?_
      exact_mod_cast hseed

/-! ## The generic REDC -/

/-- Core correctness of one REDC step over `ℤ` (the generic variant's
operand order `t * n + x`): exact division, `u < 2n`, result in
`[0, n)`, and `r * R ≡ x (mod n)`. -/
theorem redc_spec_int (R n np x t u r : ℤ) (hn : 0 < n) (hnR : n < R)
    (hnp : R ∣ n * np + 1) (hx0 : 0 ≤ x) (hx : x < n * R)
    (ht : t = x % R * np % R) (hu : u = (t * n + x) / R)
    (hr : r = if n ≤ u then u - n else u) :
    u < 2 * n ∧ 0 ≤ r ∧ r < n ∧ r * R ≡ x [ZMOD n] := by
  have hR : (0 : ℤ) < R := by omega
  have ht0 : 0 ≤ t := by rw [ht]; exact Int.emod_nonneg _ (by omega)
  have htlt : t < R := by rw [ht]; exact Int.emod_lt_of_pos _ hR
  have hdvd : R ∣ t * n + x := by
    have h1 : t ≡ x * np [ZMOD R] := by
      rw [ht]
      exact (Int.mod_modEq _ _).trans ((Int.mod_modEq x R).mul_right np)
    have h2 : t * n + x ≡ x * np * n + x [ZMOD R] := (h1.mul_right n).add_right x
    have h3 : x * np * n + x = x * (n * np + 1) := by ring
    have h4 : R ∣ x * (n * np + 1) := Dvd.dvd.mul_left hnp x
    exact Int.modEq_zero_iff_dvd.mp
      (h2.trans (h3 ▸ Int.modEq_zero_iff_dvd.mpr h4))
  have huR : u * R = t * n + x := by
    rw [hu, Int.ediv_mul_cancel hdvd]
  have hu0 : 0 ≤ u := by
    rw [hu]
    exact Int.ediv_nonneg (by positivity) hR.le
  have hu2 : u < 2 * n := by
    rw [hu, Int.ediv_lt_iff_lt_mul hR]
    have h6 : t * n < R * n := by
      exact mul_lt_mul_of_pos_right htlt hn
    calc t * n + x < R * n + n * R := by omega
    _ = 2 * n * R := by ring
  have hnt : t * n ≡ 0 [ZMOD n] := Int.modEq_zero_iff_dvd.mpr ⟨t, mul_comm t n⟩
  have key : u * R ≡ x [ZMOD n] := by
    rw [huR]
    calc t * n + x ≡ 0 + x [ZMOD n] := hnt.add_right x
    _ = x := by ring
  refine ⟨hu2, ?_, ?_, ?_⟩
  · rw [hr]; split <;> omega
  · rw [hr]; split <;> omega
  · rw [hr]
    split
    · next h =>
      have h7 : (u - n) * R = u * R - n * R := by ring
      have hnR0 : n * R ≡ 0 [ZMOD n] := Int.modEq_zero_iff_dvd.mpr ⟨R, rfl⟩
      calc (u - n) * R = u * R - n * R := h7
      _ ≡ u * R - 0 [ZMOD n] := (Int.ModEq.refl _).sub hnR0
      _ = u * R := by ring
      _ ≡ x [ZMOD n] := key
    · next h => exact key

/-- Specification of the generic `Montgomery::<T>::reduction` for a
valid context: for `0 ≤ x < n * R` the result is the Montgomery
quotient of `x`, in `[0, n)`.  No overflow precondition is needed: the
value type is arbitrary-precision. -/
theorem reductionG_spec (m : Montgomery) (x : ℤ)
    (hn : 0 < m.n) (hrm : m.rm = 2 ^ m.s - 1) (hnR : m.n < 2 ^ m.s)
    (hnp0 : 0 ≤ m.np) (hnp : (2 : ℤ) ^ m.s ∣ m.n * m.np + 1)
    (hx0 : 0 ≤ x) (hx : x < m.n * 2 ^ m.s) :
    0 ≤ m.reduction x ∧ m.reduction x < m.n ∧
    m.reduction x * 2 ^ m.s ≡ x [ZMOD m.n] := by
  have h1 : Int.land x m.rm = x % 2 ^ m.s := by
    rw [hrm]; exact int_land_mask x m.s hx0
  have h2 : Int.land (x % 2 ^ m.s * m.np) m.rm = x % 2 ^ m.s * m.np % 2 ^ m.s := by
    rw [hrm]
    refine int_land_mask _ m.s ?_
    exact mul_nonneg (Int.emod_nonneg _ (by positivity)) hnp0
  obtain ⟨-, k1, k2, k3⟩ :=
    redc_spec_int (2 ^ m.s) m.n m.np x _ _ _ hn hnR hnp hx0 hx rfl rfl rfl
  have hred : m.reduction x =
      (if m.n ≤ (x % 2 ^ m.s * m.np % 2 ^ m.s * m.n + x) / 2 ^ m.s
       then (x % 2 ^ m.s * m.np % 2 ^ m.s * m.n + x) / 2 ^ m.s - m.n
       else (x % 2 ^ m.s * m.np % 2 ^ m.s * m.n + x) / 2 ^ m.s) := by
    simp only [Montgomery.reduction]
    rw [h1, h2]
  rw [hred]
  exact ⟨k1, k2, k3⟩

/-- Cancellation of a factor coprime to the modulus, over `ℤ`. -/
theorem int_modEq_cancel (n c a b : ℤ) (hn : 0 < n) (hg : Int.gcd n c = 1)
    (h : a * c ≡ b * c [ZMOD n]) : a ≡ b [ZMOD n] := by
  have h2 := Int.ModEq.cancel_right_div_gcd hn h
  rwa [hg, Nat.cast_one, Int.ediv_one] at h2

/-- Invariant of the Montgomery `powmod` loop for the generic variant:
mirror of the fixed-width invariant, over `ℤ`. -/
theorem powmodLoopZ_spec (n R : ℤ) (red : ℤ → ℤ) (hn : 0 < n)
    (hg : Int.gcd n R = 1)
    (hred : ∀ w, 0 ≤ w → w ≤ n * n →
      0 ≤ red w ∧ red w < n ∧ red w * R ≡ w [ZMOD n]) :
    ∀ f p x y xh yh, p < f → 0 ≤ x → x < n → 0 ≤ y → y < n →
      x ≡ xh * R [ZMOD n] → y ≡ yh * R [ZMOD n] →
      0 ≤ powmodLoopZ red f x y p ∧ powmodLoopZ red f x y p < n ∧
      powmodLoopZ red f x y p ≡ xh ^ p * yh * R [ZMOD n] := by
  intro f
  induction f with
  | zero => omega
  | succ f ih =>
    intro p x y xh yh hp hx0 hx hy0 hy hxm hym
    by_cases h0 : 0 < p
    · rw [powmodLoopZ, if_pos h0]
      have hxxb : x * x ≤ n * n := mul_le_mul hx.le hx.le hx0 hn.le
      have hxyb : x * y ≤ n * n := mul_le_mul hx.le hy.le hy0 hn.le
      have hsq := hred (x * x) (by positivity) hxxb
      have hx2 : red (x * x) ≡ xh * xh * R [ZMOD n] := by
        refine int_modEq_cancel n R _ _ hn hg ?_
        refine hsq.2.2.trans ?_
        refine (hxm.mul hxm).trans ?_
        rw [show xh * R * (xh * R) = xh * xh * R * R by ring]
      have hy2b : 0 ≤ (if p % 2 = 1 then red (x * y) else y) ∧
          (if p % 2 = 1 then red (x * y) else y) < n := by
        split
        · exact ⟨(hred _ (by positivity) hxyb).1, (hred _ (by positivity) hxyb).2.1⟩
        · exact ⟨hy0, hy⟩
      have hy2 : (if p % 2 = 1 then red (x * y) else y) ≡
          (if p % 2 = 1 then xh * yh else yh) * R [ZMOD n] := by
        by_cases hodd : p % 2 = 1
        · rw [if_pos hodd, if_pos hodd]
          refine int_modEq_cancel n R _ _ hn hg ?_
          refine (hred _ (by positivity) hxyb).2.2.trans ?_
          refine (hxm.mul hym).trans ?_
          rw [show xh * R * (yh * R) = xh * yh * R * R by ring]
        · rw [if_neg hodd, if_neg hodd]
          exact hym
      have hrec := ih (p / 2) _ _ (xh * xh) (if p % 2 = 1 then xh * yh else yh)
        (by omega) hsq.1 hsq.2.1 hy2b.1 hy2b.2 hx2 hy2
      refine ⟨hrec.1, hrec.2.1, hrec.2.2.trans ?_⟩
      by_cases hodd : p % 2 = 1
      · rw [if_pos hodd]
        obtain ⟨k, hk⟩ : ∃ k, p = 2 * k + 1 := ⟨p / 2, by omega⟩
        have hk2 : p / 2 = k := by omega
        rw [hk2, hk]
        have heq : (xh * xh) ^ k * (xh * yh) * R = xh ^ (2 * k + 1) * yh * R := by
          ring
        rw [heq]
      · rw [if_neg hodd]
        obtain ⟨k, hk⟩ : ∃ k, p = 2 * k := ⟨p / 2, by omega⟩
        have hk2 : p / 2 = k := by omega
        rw [hk2, hk]
        have heq : (xh * xh) ^ k * yh * R = xh ^ (2 * k) * yh * R := by
          ring
        rw [heq]
    · have hp0 : p = 0 := by omega
      subst hp0
      rw [powmodLoopZ, if_neg h0]
      exact ⟨hy0, hy, by simpa using hym⟩

/-- A positive odd integer is coprime to every power of two, in the
`Int.gcd` sense. -/
theorem int_gcd_two_pow (n : ℤ) (ho : n % 2 = 1) (hn : 0 < n) (s : ℕ) :
    Int.gcd n (2 ^ s) = 1 := by
  obtain ⟨nn, rfl⟩ := Int.eq_ofNat_of_zero_le hn.le
  have honn : nn % 2 = 1 := by omega
  have h : Nat.Coprime nn (2 ^ s) := odd_coprime_two_pow nn s honn
  have h2 : ((2 : ℤ) ^ s) = ((2 ^ s : ℕ) : ℤ) := by push_cast; rfl
  rw [h2, Int.gcd_natCast_natCast]
  exact h

/-- Correctness of the generic `Montgomery::<T>::powmod` for every odd
positive modulus: the radix `2 ^ bits n` always exceeds `n` and the
arbitrary-precision intermediates never overflow. -/
theorem powmodG_correct (n a : ℤ) (p : ℕ) (ho : n % 2 = 1) (hn : 0 < n)
    (ha0 : 0 ≤ a) (ha : a < n) :
    (Montgomery.new n).powmod a p = a ^ p % n := by
  set m := Montgomery.new n with hm
  have hmrm : m.rm = 2 ^ bits n - 1 := rfl
  have hmr2 : m.r2 = 2 ^ (2 * bits n) % n := rfl
  have hnR : n < 2 ^ bits n := bits_spec n hn.le
  obtain ⟨hnp0, hnplt, hnpd⟩ := calc_n_primeG_spec n ho hn (bits n)
  have hg : Int.gcd n (2 ^ bits n) = 1 := int_gcd_two_pow n ho hn (bits n)
  have hr20 : 0 ≤ m.r2 := by rw [hmr2]; exact Int.emod_nonneg _ (by omega)
  have hr2lt : m.r2 < n := by rw [hmr2]; exact Int.emod_lt_of_pos _ hn
  have hr2m : m.r2 ≡ 2 ^ (2 * bits n) [ZMOD n] := by
    rw [hmr2]; exact Int.mod_modEq _ _
  have hred : ∀ w, 0 ≤ w → w ≤ n * n →
      0 ≤ m.reduction w ∧ m.reduction w < n ∧
      m.reduction w * 2 ^ bits n ≡ w [ZMOD n] := by
    intro w hw0 hw
    have hnn : n * n < n * 2 ^ bits n := mul_lt_mul_of_pos_left hnR hn
    refine reductionG_spec m w hn hmrm hnR hnp0 hnpd hw0 ?_
    show w < n * 2 ^ bits n
    omega
  have hsq : (2 : ℤ) ^ (2 * bits n) = 2 ^ bits n * 2 ^ bits n := by
    rw [two_mul, pow_add]
  have hc1 : m.convert a = m.reduction (a * m.r2) := rfl
  have hc2 : m.convert 1 = m.reduction (1 * m.r2) := rfl
  have hcab : a * m.r2 ≤ n * n := mul_le_mul ha.le hr2lt.le hr20 hn.le
  have hc2b : 1 * m.r2 ≤ n * n := by
    rw [one_mul]
    calc m.r2 ≤ n := hr2lt.le
    _ ≤ n * n := le_mul_of_one_le_left hn.le (by omega)
  have hconva := hred (a * m.r2) (mul_nonneg ha0 hr20) hcab
  have hconv1 := hred (1 * m.r2) (by rw [one_mul]; exact hr20) hc2b
  have hcam : m.convert a ≡ a * 2 ^ bits n [ZMOD n] := by
    rw [hc1]
    refine int_modEq_cancel n (2 ^ bits n) _ _ hn hg ?_
    refine hconva.2.2.trans ?_
    refine (hr2m.mul_left a).trans ?_
    have he : a * 2 ^ (2 * bits n) = a * 2 ^ bits n * 2 ^ bits n := by
      rw [hsq]; ring
    rw [he]
  have hc1m : m.convert 1 ≡ 1 * 2 ^ bits n [ZMOD n] := by
    rw [hc2]
    refine int_modEq_cancel n (2 ^ bits n) _ _ hn hg ?_
    refine hconv1.2.2.trans ?_
    refine (hr2m.mul_left 1).trans ?_
    have he : (1 : ℤ) * 2 ^ (2 * bits n) = 1 * 2 ^ bits n * 2 ^ bits n := by
      rw [hsq]; ring
    rw [he]
  have hloop := powmodLoopZ_spec n (2 ^ bits n) m.reduction hn hg hred (p + 1) p
    (m.convert a) (m.convert 1) a 1 (by omega)
    (by rw [hc1]; exact hconva.1) (by rw [hc1]; exact hconva.2.1)
    (by rw [hc2]; exact hconv1.1) (by rw [hc2]; exact hconv1.2.1) hcam hc1m
  have hfin := hred (powmodLoopZ m.reduction (p + 1) (m.convert a) (m.convert 1) p)
    hloop.1 (le_trans hloop.2.1.le (le_mul_of_one_le_left hn.le (by omega)))
  have hpw : m.powmod a p =
      m.reduction (powmodLoopZ m.reduction (p + 1) (m.convert a) (m.convert 1) p) :=
    rfl
  have hres0 : 0 ≤ m.powmod a p := by rw [hpw]; exact hfin.1
  have hres : m.powmod a p < n := by rw [hpw]; exact hfin.2.1
  have hfinal : m.powmod a p ≡ a ^ p [ZMOD n] := by
    rw [hpw]
    refine int_modEq_cancel n (2 ^ bits n) _ _ hn hg ?_
    refine hfin.2.2.trans ?_
    refine hloop.2.2.trans ?_
    rw [show a ^ p * 1 * 2 ^ bits n = a ^ p * 2 ^ bits n by ring]
  rw [← Int.emod_eq_of_lt hres0 hres]
  exact hfinal

/-! ## Round-trip of Montgomery form through one reduction -/

/-- Reducing `R * x` recovers `x` for `x < n` (64-bit variant): the low
word of `R * x` is zero, so `T = 0` and `U = x` exactly. -/
theorem roundtrip64 (n x : ℕ) (hn : 0 < n) (hlt : n < 2 ^ 64) (hx : x < n) :
    (Montgomery64.new n).reduction (2 ^ 64 * x % (n * 2 ^ 64)) = x := by
  have hXlt : 2 ^ 64 * x < n * 2 ^ 64 := by
    rw [mul_comm n (2 ^ 64)]
    exact mul_lt_mul_of_pos_left hx (by norm_num)
  rw [Nat.mod_eq_of_lt hXlt]
  have ht1 : 2 ^ 64 * x % 2 ^ 64 = 0 := Nat.mul_mod_right _ _
  have hX2 : 2 ^ 64 * x < 2 ^ 128 := by
    calc 2 ^ 64 * x < 2 ^ 64 * 2 ^ 64 :=
      mul_lt_mul_of_pos_left (by omega) (by norm_num)
    _ = 2 ^ 128 := by norm_num
  have hnn : (Montgomery64.new n).n = n := rfl
  simp only [Montgomery64.reduction, ht1, Nat.zero_mul, Nat.zero_mod,
    Nat.mul_zero, Nat.add_zero, Nat.mod_eq_of_lt hX2, hnn]
  rw [Nat.mul_div_cancel_left x (by norm_num : 0 < 2 ^ 64)]
  exact if_neg (by omega)

/-- Reducing `R * x` recovers `x` for `x < n` (32-bit variant). -/
theorem roundtrip32 (n x : ℕ) (_hn : 0 < n) (hlt : n < 2 ^ 32) (hx : x < n) :
    (Montgomery32.new n).reduction (2 ^ 32 * x % (n * 2 ^ 32)) = x := by
  have hXlt : 2 ^ 32 * x < n * 2 ^ 32 := by
    rw [mul_comm n (2 ^ 32)]
    exact mul_lt_mul_of_pos_left hx (by norm_num)
  rw [Nat.mod_eq_of_lt hXlt]
  have ht1 : 2 ^ 32 * x % 2 ^ 32 = 0 := Nat.mul_mod_right _ _
  have hX2 : 2 ^ 32 * x < 2 ^ 64 := by
    calc 2 ^ 32 * x < 2 ^ 32 * 2 ^ 32 :=
      mul_lt_mul_of_pos_left (by omega) (by norm_num)
    _ = 2 ^ 64 := by norm_num
  have hnn : (Montgomery32.new n).n = n := rfl
  simp only [Montgomery32.reduction, ht1, Nat.zero_mul, Nat.zero_mod,
    Nat.mul_zero, Nat.add_zero, Nat.mod_eq_of_lt hX2, hnn]
  rw [Nat.mul_div_cancel_left x (by norm_num : 0 < 2 ^ 32)]
  exact if_neg (by omega)

/-- Reducing `R * x` recovers `x` for `0 ≤ x < n` (generic variant). -/
theorem roundtripG (n x : ℤ) (_hn : 0 < n) (hx0 : 0 ≤ x) (hx : x < n) :
    (Montgomery.new n).reduction (2 ^ bits n * x % (n * 2 ^ bits n)) = x := by
  have hR : (0 : ℤ) < 2 ^ bits n := by positivity
  have hXlt : 2 ^ bits n * x < n * 2 ^ bits n := by
    rw [mul_comm n (2 ^ bits n)]
    exact mul_lt_mul_of_pos_left hx hR
  have hX0 : (0 : ℤ) ≤ 2 ^ bits n * x := by positivity
  rw [Int.emod_eq_of_lt hX0 hXlt]
  have hrm : (Montgomery.new n).rm = 2 ^ bits n - 1 := rfl
  have ht1 : Int.land (2 ^ bits n * x) (Montgomery.new n).rm = 0 := by
    rw [hrm, int_land_mask _ _ hX0, Int.mul_emod_right]
  have ht2 : Int.land ((0 : ℤ) * (Montgomery.new n).np) (Montgomery.new n).rm = 0 := by
    rw [zero_mul, hrm, int_land_mask _ _ (le_refl (0 : ℤ)), Int.zero_emod]
  have ht3 : Int.land (0 : ℤ) (Montgomery.new n).rm = 0 := by
    rw [hrm, int_land_mask _ _ (le_refl (0 : ℤ)), Int.zero_emod]
  have hnn : (Montgomery.new n).n = n := rfl
  simp only [Montgomery.reduction, ht1, ht2, ht3, zero_mul, zero_add, hnn]
  rw [show (Montgomery.new n).s = bits n from rfl,
    Int.mul_ediv_cancel_left x (by positivity : (2 : ℤ) ^ bits n ≠ 0)]
  exact if_neg (by omega)

/-- Uniqueness of the Montgomery quotient in `[0, n)`, over `ℕ`. -/
theorem montgomery_unique (n R r v : ℕ) (hco : Nat.Coprime n R)
    (hr : r < n) (hv : v < n) (h : r * R ≡ v * R [MOD n]) : r = v := by
  have h1 : r % n = v % n := Nat.ModEq.cancel_right_of_coprime hco h
  rwa [Nat.mod_eq_of_lt hr, Nat.mod_eq_of_lt hv] at h1

/-- Uniqueness of the Montgomery quotient in `[0, n)`, over `ℤ`. -/
theorem montgomery_unique_int (n R r v : ℤ) (hn : 0 < n) (hg : Int.gcd n R = 1)
    (h0r : 0 ≤ r) (hr : r < n) (h0v : 0 ≤ v) (hv : v < n)
    (h : r * R ≡ v * R [ZMOD n]) : r = v := by
  have h1 : r % n = v % n := int_modEq_cancel n R r v hn hg h
  rwa [Int.emod_eq_of_lt h0r hr, Int.emod_eq_of_lt h0v hv] at h1

/-! ## Bridges between the Montgomery path and plain `pow_mod` -/

/-- `Montgomery64::powmod` agrees with the plain `pow_mod` for odd
`1 < n < 2^63`. -/
theorem powmod64_eq_pow_mod (n a : ℕ) (p : ℕ) (ho : n % 2 = 1) (h1 : 1 < n)
    (hlt : n < 2 ^ 63) (ha : a < n) :
    ((Montgomery64.new n).powmod a p : ℤ) = pow_mod (a : ℤ) p (n : ℤ) := by
  rw [powmod64_correct n a p ho hlt ha]
  by_cases hp : 1 ≤ p
  · rw [pow_mod_eq _ _ _ (by exact_mod_cast Nat.lt_of_lt_of_le Nat.zero_lt_one h1.le)
      (by positivity) hp]
    push_cast
    ring
  · have hp0 : p = 0 := by omega
    subst hp0
    have hL : a ^ 0 % n = 1 := by rw [pow_zero, Nat.mod_eq_of_lt h1]
    have hR : pow_mod (a : ℤ) 0 (n : ℤ) = 1 := rfl
    rw [hL, hR]
    norm_num

/-- `Montgomery32::powmod` agrees with the plain `pow_mod` for odd
`1 < n < 2^31`. -/
theorem powmod32_eq_pow_mod (n a : ℕ) (p : ℕ) (ho : n % 2 = 1) (h1 : 1 < n)
    (hlt : n < 2 ^ 31) (ha : a < n) :
    ((Montgomery32.new n).powmod a p : ℤ) = pow_mod (a : ℤ) p (n : ℤ) := by
  rw [powmod32_correct n a p ho hlt ha]
  by_cases hp : 1 ≤ p
  · rw [pow_mod_eq _ _ _ (by exact_mod_cast Nat.lt_of_lt_of_le Nat.zero_lt_one h1.le)
      (by positivity) hp]
    push_cast
    ring
  · have hp0 : p = 0 := by omega
    subst hp0
    have hL : a ^ 0 % n = 1 := by rw [pow_zero, Nat.mod_eq_of_lt h1]
    have hR : pow_mod (a : ℤ) 0 (n : ℤ) = 1 := rfl
    rw [hL, hR]
    norm_num

/-- The generic `Montgomery::<T>::powmod` agrees with the plain
`pow_mod` for every odd `n > 1`. -/
theorem powmodG_eq_pow_mod (n a : ℤ) (p : ℕ) (ho : n % 2 = 1) (h1 : 1 < n)
    (ha0 : 0 ≤ a) (ha : a < n) :
    (Montgomery.new n).powmod a p = pow_mod a p n := by
  rw [powmodG_correct n a p ho (by omega) ha0 ha]
  by_cases hp : 1 ≤ p
  · rw [pow_mod_eq _ _ _ (by omega) ha0 hp]
  · have hp0 : p = 0 := by omega
    subst hp0
    have hL : a ^ 0 % n = 1 := by
      rw [pow_zero]
      exact Int.emod_eq_of_lt (by norm_num) (by omega)
    have hR : pow_mod a 0 n = 1 := rfl
    rw [hL, hR]

/-! ## Claim theorems -/

/-- C6: for all `a`, `b` and positive modulus `m` with `|a| ≤ m` and
`|b| ≤ m`, `add_mod(a, b, m)` is congruent to `a + b` modulo `m`, its
result lies in `[-m, m]`, and it is obtained from the exact sum by at
most one corrective step: subtract `m` if the sum is `≥ m`, else add
`m` if the sum is `≤ -m`. -/
theorem claim_C6 (a b m : ℤ) (_hm : 0 < m) (ha : |a| ≤ m) (hb : |b| ≤ m) :
    add_mod a b m ≡ a + b [ZMOD m] ∧
    -m ≤ add_mod a b m ∧ add_mod a b m ≤ m ∧
    add_mod a b m =
      (if m ≤ a + b then a + b - m
       else if a + b ≤ -m then a + b + m else a + b) := by
  have ha' := abs_le.mp ha
  have hb' := abs_le.mp hb
  have hdef : add_mod a b m =
      (if m ≤ a + b then a + b - m
       else if a + b ≤ -m then a + b + m else a + b) := rfl
  refine ⟨?_, ?_, ?_, hdef⟩
  · rw [hdef]
    split_ifs with h1 h2
    · exact Int.modEq_iff_dvd.mpr ⟨1, by ring⟩
    · exact Int.modEq_iff_dvd.mpr ⟨-1, by ring⟩
    · exact Int.ModEq.rfl
  · rw [hdef]; split_ifs <;> omega
  · rw [hdef]; split_ifs <;> omega

/-- Witness for C6 at `a = 3`, `b = 4`, `m = 5` (the doctest instance,
where `add_mod` returns `2`). -/
theorem claim_C6_witness :
    (0 : ℤ) < 5 ∧ |(3 : ℤ)| ≤ 5 ∧ |(4 : ℤ)| ≤ 5 ∧
    (add_mod 3 4 5 ≡ 3 + 4 [ZMOD 5] ∧
     -5 ≤ add_mod 3 4 5 ∧ add_mod 3 4 5 ≤ 5 ∧
     add_mod 3 4 5 =
       (if (5 : ℤ) ≤ 3 + 4 then 3 + 4 - 5
        else if (3 : ℤ) + 4 ≤ -5 then 3 + 4 + 5 else 3 + 4)) :=
  ⟨by norm_num, by norm_num, by norm_num,
   claim_C6 3 4 5 (by norm_num) (by norm_num) (by norm_num)⟩

/-- C7: for every prime `m` and every integer `a`, `pow_mod(a, m, m)`
is congruent to `a` modulo `m` (Fermat's little theorem for the
least-significant-bit-first square-and-multiply loop). -/
theorem claim_C7 (a : ℤ) (m : ℕ) (hm : m.Prime) :
    pow_mod a m (m : ℤ) ≡ a [ZMOD (m : ℤ)] :=
  (pow_mod_modEq a m (m : ℤ)).trans (int_pow_prime_modEq a m hm)

/-- Witness for C7 at `a = 3`, `m = 5`. -/
theorem claim_C7_witness :
    Nat.Prime 5 ∧ pow_mod 3 5 ((5 : ℕ) : ℤ) ≡ 3 [ZMOD ((5 : ℕ) : ℤ)] :=
  ⟨by norm_num, claim_C7 3 5 (by norm_num)⟩

/-- C10: for every base `a` and modulus (including `modulo = 1`),
`pow_mod(a, 0, modulo)` returns exactly the unreduced accumulator seed
`1`: the loop body never runs and no reduction is applied. -/
theorem claim_C10 (a modulo : ℤ) : pow_mod a 0 modulo = 1 := rfl

/-- C3: for every odd modulus in range, `calc_n_prime(N, S)` returns
`NP` in `[0, 2^S)` with `N * NP ≡ -1 (mod 2^S)`, for `S = 64`
(`Montgomery64`), `S = 32` (`Montgomery32`) and the bit-length-derived
`S = bits N` (generic variant); each is computed from the 3-bit seed
`(-N) mod 8` by the doubling step `x <- x*(N*x + 2)` reduced modulo the
working power of two. -/
theorem claim_C3 :
    (∀ n : ℕ, n % 2 = 1 → n < 2 ^ 64 →
      Montgomery64.calc_n_prime n 64 < 2 ^ 64 ∧
      2 ^ 64 ∣ n * Montgomery64.calc_n_prime n 64 + 1) ∧
    (∀ n : ℕ, n % 2 = 1 → n < 2 ^ 32 →
      Montgomery32.calc_n_prime n 32 < 2 ^ 32 ∧
      2 ^ 32 ∣ n * Montgomery32.calc_n_prime n 32 + 1) ∧
    (∀ n : ℤ, n % 2 = 1 → 0 < n →
      0 ≤ Montgomery.calc_n_prime n (bits n) ∧
      Montgomery.calc_n_prime n (bits n) < 2 ^ bits n ∧
      (2 : ℤ) ^ bits n ∣ n * Montgomery.calc_n_prime n (bits n) + 1) := by
  refine ⟨?_, ?_, ?_⟩
  · intro n ho hlt
    exact ⟨calcNPrimeLoop64_lt n 64 64 _ 3, calc_n_prime64_spec n ho hlt⟩
  · intro n ho hlt
    exact ⟨calcNPrimeLoop32_lt n 32 32 _ 3, calc_n_prime32_spec n ho hlt⟩
  · intro n ho hn
    exact calc_n_primeG_spec n ho hn (bits n)

/-- Witness for C3 at `n = 57` (64-bit and generic) and `n = 89`
(32-bit). -/
theorem claim_C3_witness :
    (57 : ℕ) % 2 = 1 ∧ (57 : ℕ) < 2 ^ 64 ∧
    (Montgomery64.calc_n_prime 57 64 < 2 ^ 64 ∧
      2 ^ 64 ∣ 57 * Montgomery64.calc_n_prime 57 64 + 1) ∧
    (89 : ℕ) % 2 = 1 ∧ (89 : ℕ) < 2 ^ 32 ∧
    (Montgomery32.calc_n_prime 89 32 < 2 ^ 32 ∧
      2 ^ 32 ∣ 89 * Montgomery32.calc_n_prime 89 32 + 1) ∧
    (57 : ℤ) % 2 = 1 ∧ (0 : ℤ) < 57 ∧
    (0 ≤ Montgomery.calc_n_prime 57 (bits 57) ∧
      Montgomery.calc_n_prime 57 (bits 57) < 2 ^ bits 57 ∧
      (2 : ℤ) ^ bits 57 ∣ 57 * Montgomery.calc_n_prime 57 (bits 57) + 1) :=
  ⟨by norm_num, by norm_num, claim_C3.1 57 (by norm_num) (by norm_num),
   by norm_num, by norm_num, claim_C3.2.1 89 (by norm_num) (by norm_num),
   by norm_num, by norm_num, claim_C3.2.2 57 (by norm_num) (by norm_num)⟩

/-- C4: for every Montgomery context with odd modulus `N` and radix
`R`, and every `x` with `0 ≤ x < N`, `reduction((R*x) mod (N*R)) = x`:
Montgomery form round-trips through one reduction, in all three
variants. -/
theorem claim_C4 :
    (∀ n x : ℕ, n % 2 = 1 → n < 2 ^ 64 → x < n →
      (Montgomery64.new n).reduction (2 ^ 64 * x % (n * 2 ^ 64)) = x) ∧
    (∀ n x : ℕ, n % 2 = 1 → n < 2 ^ 32 → x < n →
      (Montgomery32.new n).reduction (2 ^ 32 * x % (n * 2 ^ 32)) = x) ∧
    (∀ n x : ℤ, n % 2 = 1 → 0 < n → 0 ≤ x → x < n →
      (Montgomery.new n).reduction (2 ^ bits n * x % (n * 2 ^ bits n)) = x) :=
  ⟨fun n x ho hlt hx => roundtrip64 n x (by omega) hlt hx,
   fun n x ho hlt hx => roundtrip32 n x (by omega) hlt hx,
   fun n x ho hn hx0 hx => roundtripG n x hn hx0 hx⟩

/-- Witness for C4 at `n = 57`, `x = 5` (64-bit and generic) and
`n = 89`, `x = 7` (32-bit). -/
theorem claim_C4_witness :
    (57 : ℕ) % 2 = 1 ∧ (57 : ℕ) < 2 ^ 64 ∧ (5 : ℕ) < 57 ∧
    (Montgomery64.new 57).reduction (2 ^ 64 * 5 % (57 * 2 ^ 64)) = 5 ∧
    (89 : ℕ) % 2 = 1 ∧ (89 : ℕ) < 2 ^ 32 ∧ (7 : ℕ) < 89 ∧
    (Montgomery32.new 89).reduction (2 ^ 32 * 7 % (89 * 2 ^ 32)) = 7 ∧
    (57 : ℤ) % 2 = 1 ∧ (0 : ℤ) < 57 ∧ (0 : ℤ) ≤ 5 ∧ (5 : ℤ) < 57 ∧
    (Montgomery.new 57).reduction (2 ^ bits 57 * 5 % (57 * 2 ^ bits 57)) = 5 :=
  ⟨by norm_num, by norm_num, by norm_num,
   claim_C4.1 57 5 (by norm_num) (by norm_num) (by norm_num),
   by norm_num, by norm_num, by norm_num,
   claim_C4.2.1 89 7 (by norm_num) (by norm_num) (by norm_num),
   by norm_num, by norm_num, by norm_num, by norm_num,
   claim_C4.2.2 57 5 (by norm_num) (by norm_num) (by norm_num) (by norm_num)⟩

/-- C1 (amended): `powmod(a, p)` on the context built by `new(N)`
returns `a^p mod N` (an ordinary residue in `[0, N)`) for every odd
modulus `N` and `0 ≤ a < N` and `p ≥ 0` — with the fixed-width ranges
amended from `N < 2^64` to `N < 2^63` (`Montgomery64`) and from
`N < 2^32` to `N < 2^31` (`Montgomery32`), because for larger moduli
the `u128` (resp. `u64`) intermediate `X + N*T` of `reduction` can
overflow; the generic variant is correct for every odd `N`. -/
theorem claim_C1 :
    (∀ n a p : ℕ, n % 2 = 1 → n < 2 ^ 63 → a < n →
      (Montgomery64.new n).powmod a p = a ^ p % n) ∧
    (∀ n a p : ℕ, n % 2 = 1 → n < 2 ^ 31 → a < n →
      (Montgomery32.new n).powmod a p = a ^ p % n) ∧
    (∀ (n a : ℤ) (p : ℕ), n % 2 = 1 → 0 < n → 0 ≤ a → a < n →
      (Montgomery.new n).powmod a p = a ^ p % n) :=
  ⟨fun n a p ho hlt ha => powmod64_correct n a p ho hlt ha,
   fun n a p ho hlt ha => powmod32_correct n a p ho hlt ha,
   fun n a p ho hn ha0 ha => powmodG_correct n a p ho hn ha0 ha⟩

/-- Counterexample to C1 as stated: for the odd 64-bit modulus
`N = 18380603107244094943 > 2^63` (which is `< 2^64`, so inside the
claimed range) and base `a = 9808507260218814805 < N`, already
`powmod(a, 1) = a - 1 ≠ a = a^1 mod N`; similarly for the 32-bit
modulus `N = 3496735471 > 2^31` with base `a = 1999744785`. -/
theorem claim_C1_counterexample :
    (18380603107244094943 : ℕ) % 2 = 1 ∧
    (18380603107244094943 : ℕ) < 2 ^ 64 ∧
    (9808507260218814805 : ℕ) < 18380603107244094943 ∧
    (Montgomery64.new 18380603107244094943).powmod 9808507260218814805 1 =
      9808507260218814804 ∧
    (9808507260218814805 : ℕ) ^ 1 % 18380603107244094943 =
      9808507260218814805 ∧
    (9808507260218814804 : ℕ) ≠ 9808507260218814805 ∧
    (3496735471 : ℕ) % 2 = 1 ∧ (3496735471 : ℕ) < 2 ^ 32 ∧
    (1999744785 : ℕ) < 3496735471 ∧
    (Montgomery32.new 3496735471).powmod 1999744785 1 = 1999744784 ∧
    (1999744785 : ℕ) ^ 1 % 3496735471 = 1999744785 ∧
    (1999744784 : ℕ) ≠ 1999744785 :=
  ⟨by norm_num, by norm_num, by norm_num, by rfl, by norm_num, by norm_num,
   by norm_num, by norm_num, by norm_num, by rfl, by norm_num, by norm_num⟩

/-- Witness for the amended C1 at the crate's doctest instances:
`Montgomery64::new(57).powmod(5, 42)`, `Montgomery32::new(89).powmod(3,
57)` and the generic context for `n = 57`. -/
theorem claim_C1_witness :
    (57 : ℕ) % 2 = 1 ∧ (57 : ℕ) < 2 ^ 63 ∧ (5 : ℕ) < 57 ∧
    (Montgomery64.new 57).powmod 5 42 = 5 ^ 42 % 57 ∧
    (89 : ℕ) % 2 = 1 ∧ (89 : ℕ) < 2 ^ 31 ∧ (3 : ℕ) < 89 ∧
    (Montgomery32.new 89).powmod 3 57 = 3 ^ 57 % 89 ∧
    (57 : ℤ) % 2 = 1 ∧ (0 : ℤ) < 57 ∧ (0 : ℤ) ≤ 5 ∧ (5 : ℤ) < 57 ∧
    (Montgomery.new 57).powmod 5 42 = 5 ^ 42 % 57 :=
  ⟨by norm_num, by norm_num, by norm_num,
   claim_C1.1 57 5 42 (by norm_num) (by norm_num) (by norm_num),
   by norm_num, by norm_num, by norm_num,
   claim_C1.2.1 89 3 57 (by norm_num) (by norm_num) (by norm_num),
   by norm_num, by norm_num, by norm_num, by norm_num,
   claim_C1.2.2 57 5 42 (by norm_num) (by norm_num) (by norm_num) (by norm_num)⟩

/-- C5 (amended): the Montgomery-path `powmod(a, p)` equals the plain
`pow_mod(a, p, &N)` computed independently, for every odd modulus
`N > 1` in the (amended) safe range of each specialization —
`N < 2^63` for `Montgomery64`, `N < 2^31` for `Montgomery32`, any odd
`N > 1` for the generic variant — every base `0 ≤ a < N` and every
exponent `p ≥ 0`.  `N = 1` is excluded: there `powmod` returns the
reduced residue `0` while `pow_mod(a, 0, 1)` returns the unreduced
seed `1`. -/
theorem claim_C5 :
    (∀ n a p : ℕ, n % 2 = 1 → 1 < n → n < 2 ^ 63 → a < n →
      ((Montgomery64.new n).powmod a p : ℤ) = pow_mod (a : ℤ) p (n : ℤ)) ∧
    (∀ n a p : ℕ, n % 2 = 1 → 1 < n → n < 2 ^ 31 → a < n →
      ((Montgomery32.new n).powmod a p : ℤ) = pow_mod (a : ℤ) p (n : ℤ)) ∧
    (∀ (n a : ℤ) (p : ℕ), n % 2 = 1 → 1 < n → 0 ≤ a → a < n →
      (Montgomery.new n).powmod a p = pow_mod a p n) :=
  ⟨fun n a p ho h1 hlt ha => powmod64_eq_pow_mod n a p ho h1 hlt ha,
   fun n a p ho h1 hlt ha => powmod32_eq_pow_mod n a p ho h1 hlt ha,
   fun n a p ho h1 ha0 ha => powmodG_eq_pow_mod n a p ho h1 ha0 ha⟩

/-- Counterexample to C5 as stated: at the odd modulus `N = 1` (in
range for every specialization) with `a = 0 < N` and `p = 0`, the
Montgomery path returns the reduced residue `0` while the plain
`pow_mod` returns its unreduced seed `1`. -/
theorem claim_C5_counterexample :
    (1 : ℕ) % 2 = 1 ∧ (0 : ℕ) < 1 ∧
    (Montgomery64.new 1).powmod 0 0 = 0 ∧
    pow_mod ((0 : ℕ) : ℤ) 0 ((1 : ℕ) : ℤ) = 1 ∧
    ((Montgomery64.new 1).powmod 0 0 : ℤ) ≠ pow_mod ((0 : ℕ) : ℤ) 0 ((1 : ℕ) : ℤ) := by
  have h1 : (Montgomery64.new 1).powmod 0 0 = 0 := by rfl
  have h2 : pow_mod ((0 : ℕ) : ℤ) 0 ((1 : ℕ) : ℤ) = 1 := rfl
  refine ⟨by norm_num, by norm_num, h1, h2, ?_⟩
  rw [h1, h2]
  norm_num

/-- Witness for the amended C5 at `n = 57`, `a = 5`, `p = 42` (64-bit),
`n = 89`, `a = 3`, `p = 57` (32-bit), and `n = 57` (generic). -/
theorem claim_C5_witness :
    (57 : ℕ) % 2 = 1 ∧ (1 : ℕ) < 57 ∧ (57 : ℕ) < 2 ^ 63 ∧ (5 : ℕ) < 57 ∧
    ((Montgomery64.new 57).powmod 5 42 : ℤ) = pow_mod ((5 : ℕ) : ℤ) 42 ((57 : ℕ) : ℤ) ∧
    (89 : ℕ) % 2 = 1 ∧ (1 : ℕ) < 89 ∧ (89 : ℕ) < 2 ^ 31 ∧ (3 : ℕ) < 89 ∧
    ((Montgomery32.new 89).powmod 3 57 : ℤ) = pow_mod ((3 : ℕ) : ℤ) 57 ((89 : ℕ) : ℤ) ∧
    (57 : ℤ) % 2 = 1 ∧ (1 : ℤ) < 57 ∧ (0 : ℤ) ≤ 5 ∧ (5 : ℤ) < 57 ∧
    (Montgomery.new 57).powmod 5 42 = pow_mod 5 42 57 :=
  ⟨by norm_num, by norm_num, by norm_num, by norm_num,
   claim_C5.1 57 5 42 (by norm_num) (by norm_num) (by norm_num) (by norm_num),
   by norm_num, by norm_num, by norm_num, by norm_num,
   claim_C5.2.1 89 3 57 (by norm_num) (by norm_num) (by norm_num) (by norm_num),
   by norm_num, by norm_num, by norm_num, by norm_num,
   claim_C5.2.2 57 5 42 (by norm_num) (by norm_num) (by norm_num) (by norm_num)⟩

/-- C8 (amended): for every context built by `new` from an odd modulus
`N > 1` (fixed-width variants) or any odd `N ≥ 1` (generic variant),
the precomputed constants satisfy `0 ≤ np < R` and `0 ≤ r2 < N`.  The
bound `r2 < N` fails at `N = 1` in the fixed-width variants, where
`r2 = u128::MAX % 1 + 1 = 1 = N`.  (Immutability is by construction:
every operation takes the context by shared reference and the embedded
operations are pure functions of the context value.) -/
theorem claim_C8 :
    (∀ n : ℕ, n % 2 = 1 → 1 < n → n < 2 ^ 64 →
      (Montgomery64.new n).np < 2 ^ 64 ∧
      0 < (Montgomery64.new n).r2 ∧ (Montgomery64.new n).r2 < n) ∧
    (∀ n : ℕ, n % 2 = 1 → 1 < n → n < 2 ^ 32 →
      (Montgomery32.new n).np < 2 ^ 32 ∧
      0 < (Montgomery32.new n).r2 ∧ (Montgomery32.new n).r2 < n) ∧
    (∀ n : ℤ, n % 2 = 1 → 0 < n →
      0 ≤ (Montgomery.new n).np ∧ (Montgomery.new n).np < 2 ^ bits n ∧
      0 ≤ (Montgomery.new n).r2 ∧ (Montgomery.new n).r2 < n) := by
  refine ⟨?_, ?_, ?_⟩
  · intro n ho h1 _hlt
    refine ⟨calcNPrimeLoop64_lt n 64 64 _ 3, ?_, r2_lt_of_odd n 128 ho h1⟩
    show 0 < (2 ^ 128 - 1) % n + 1
    omega
  · intro n ho h1 _hlt
    refine ⟨calcNPrimeLoop32_lt n 32 32 _ 3, ?_, r2_lt_of_odd n 64 ho h1⟩
    show 0 < (2 ^ 64 - 1) % n + 1
    omega
  · intro n ho hn
    obtain ⟨h1, h2, -⟩ := calc_n_primeG_spec n ho hn (bits n)
    exact ⟨h1, h2, Int.emod_nonneg _ (by omega), Int.emod_lt_of_pos _ hn⟩

/-- Counterexample to C8 as stated: at the odd modulus `N = 1`,
`Montgomery64::new(1)` stores `r2 = u128::MAX % 1 + 1 = 1`, which is
not `< N = 1`. -/
theorem claim_C8_counterexample :
    (1 : ℕ) % 2 = 1 ∧ (Montgomery64.new 1).r2 = 1 ∧
    ¬ (Montgomery64.new 1).r2 < (Montgomery64.new 1).n := by
  have h : (Montgomery64.new 1).r2 = 1 := by rfl
  have h2 : (Montgomery64.new 1).n = 1 := rfl
  refine ⟨rfl, h, ?_⟩
  rw [h, h2]
  omega

/-- Witness for the amended C8 at `n = 57` (64-bit and generic) and
`n = 89` (32-bit). -/
theorem claim_C8_witness :
    (57 : ℕ) % 2 = 1 ∧ (1 : ℕ) < 57 ∧ (57 : ℕ) < 2 ^ 64 ∧
    ((Montgomery64.new 57).np < 2 ^ 64 ∧
      0 < (Montgomery64.new 57).r2 ∧ (Montgomery64.new 57).r2 < 57) ∧
    (89 : ℕ) % 2 = 1 ∧ (1 : ℕ) < 89 ∧ (89 : ℕ) < 2 ^ 32 ∧
    ((Montgomery32.new 89).np < 2 ^ 32 ∧
      0 < (Montgomery32.new 89).r2 ∧ (Montgomery32.new 89).r2 < 89) ∧
    (57 : ℤ) % 2 = 1 ∧ (0 : ℤ) < 57 ∧
    (0 ≤ (Montgomery.new 57).np ∧ (Montgomery.new 57).np < 2 ^ bits 57 ∧
      0 ≤ (Montgomery.new 57).r2 ∧ (Montgomery.new 57).r2 < 57) :=
  ⟨by norm_num, by norm_num, by norm_num,
   claim_C8.1 57 (by norm_num) (by norm_num) (by norm_num),
   by norm_num, by norm_num, by norm_num,
   claim_C8.2.1 89 (by norm_num) (by norm_num) (by norm_num),
   by norm_num, by norm_num,
   claim_C8.2.2 57 (by norm_num) (by norm_num)⟩

/-- C9 (amended): in the fixed-width specializations the wide
intermediate `X + N*T` of `reduction` raises a fatal fault on overflow
only under the overflow-checked (debug-profile) semantics of Rust's
`+`, modelled by `reductionChecked`: it faults (`none`) exactly when
the intermediate reaches the double-width container's capacity, and
otherwise agrees with `reduction`.  Without overflow checks
(release profile) the addition wraps and the operation silently
continues with the wrapped value (see the counterexample); the
following `u64::try_from(t >> 64)` can never fail and detects
nothing. -/
theorem claim_C9 :
    (∀ (m : Montgomery64) (x : ℕ),
      (m.reductionChecked x = none ↔
        2 ^ 128 ≤ x + m.n * (x % 2 ^ 64 * m.np % 2 ^ 64)) ∧
      (x + m.n * (x % 2 ^ 64 * m.np % 2 ^ 64) < 2 ^ 128 →
        m.reductionChecked x = some (m.reduction x))) ∧
    (∀ (m : Montgomery32) (x : ℕ),
      (m.reductionChecked x = none ↔
        2 ^ 64 ≤ x + m.n * (x % 2 ^ 32 * m.np % 2 ^ 32)) ∧
      (x + m.n * (x % 2 ^ 32 * m.np % 2 ^ 32) < 2 ^ 64 →
        m.reductionChecked x = some (m.reduction x))) := by
  constructor
  · intro m x
    constructor
    · simp only [Montgomery64.reductionChecked]
      by_cases hc : 2 ^ 128 ≤ x + m.n * (x % 2 ^ 64 * m.np % 2 ^ 64)
      · rw [if_pos hc]
        exact iff_of_true rfl hc
      · rw [if_neg hc]
        exact iff_of_false (by simp) hc
    · intro h
      simp only [Montgomery64.reductionChecked, Montgomery64.reduction]
      rw [if_neg (by omega), Nat.mod_eq_of_lt h]
  · intro m x
    constructor
    · simp only [Montgomery32.reductionChecked]
      by_cases hc : 2 ^ 64 ≤ x + m.n * (x % 2 ^ 32 * m.np % 2 ^ 32)
      · rw [if_pos hc]
        exact iff_of_true rfl hc
      · rw [if_neg hc]
        exact iff_of_false (by simp) hc
    · intro h
      simp only [Montgomery32.reductionChecked, Montgomery32.reduction]
      rw [if_neg (by omega), Nat.mod_eq_of_lt h]

/-- Counterexample to C9 as stated: at the odd modulus
`N = 16188766312912930627 < 2^64` and input
`X = 249100050346850606978175469041859392750 < N * 2^64`, the wide
intermediate exceeds `2^128`, yet the release-semantics `reduction`
does not fault: it silently returns the wrapped value
`2352381218053870430`, which is not the Montgomery quotient of `X`. -/
theorem claim_C9_counterexample :
    (16188766312912930627 : ℕ) % 2 = 1 ∧
    (16188766312912930627 : ℕ) < 2 ^ 64 ∧
    (249100050346850606978175469041859392750 : ℕ) <
      16188766312912930627 * 2 ^ 64 ∧
    2 ^ 128 ≤ 249100050346850606978175469041859392750 +
      16188766312912930627 *
        (249100050346850606978175469041859392750 % 2 ^ 64 *
          (Montgomery64.new 16188766312912930627).np % 2 ^ 64) ∧
    (Montgomery64.new 16188766312912930627).reduction
      249100050346850606978175469041859392750 = 2352381218053870430 ∧
    ¬ (2352381218053870430 * 2 ^ 64 % 16188766312912930627 =
       249100050346850606978175469041859392750 % 16188766312912930627) :=
  ⟨by norm_num, by norm_num, by norm_num, by decide, by rfl, by decide⟩

/-- Witness for the amended C9: on the context for `n = 57` and input
`x = 100` the intermediate fits, the checked reduction does not fault
and agrees with the release-semantics reduction. -/
theorem claim_C9_witness :
    100 + (Montgomery64.new 57).n *
      (100 % 2 ^ 64 * (Montgomery64.new 57).np % 2 ^ 64) < 2 ^ 128 ∧
    (Montgomery64.new 57).reductionChecked 100 =
      some ((Montgomery64.new 57).reduction 100) :=
  ⟨by decide, (claim_C9.1 (Montgomery64.new 57) 100).2 (by decide)⟩

/-- C2 (amended): for every Montgomery context with odd modulus `N` and
every input `0 ≤ X < N * R`, `reduction(X)` computes
`T = (X mod R) * NP mod R` and `U = (X + N*T) / R` with the division
exact, `U < 2N` so `N` is subtracted at most once, and returns the
unique value in `[0, N)` whose product with `R` is congruent to `X`
modulo `N` — amended, for the fixed-width variants, by the additional
precondition that the intermediate `X + N*T` fits the double-width
container (`u128` resp. `u64`); without it the intermediate can wrap
(see the counterexample).  The generic variant needs no such
precondition. -/
theorem claim_C2 :
    (∀ n x : ℕ, n % 2 = 1 → n < 2 ^ 64 → x < n * 2 ^ 64 →
      x + n * (x % 2 ^ 64 * (Montgomery64.new n).np % 2 ^ 64) < 2 ^ 128 →
      2 ^ 64 ∣ x + n * (x % 2 ^ 64 * (Montgomery64.new n).np % 2 ^ 64) ∧
      (x + n * (x % 2 ^ 64 * (Montgomery64.new n).np % 2 ^ 64)) / 2 ^ 64 < 2 * n ∧
      (Montgomery64.new n).reduction x < n ∧
      (Montgomery64.new n).reduction x * 2 ^ 64 ≡ x [MOD n] ∧
      ∀ v, v < n → v * 2 ^ 64 ≡ x [MOD n] →
        v = (Montgomery64.new n).reduction x) ∧
    (∀ n x : ℕ, n % 2 = 1 → n < 2 ^ 32 → x < n * 2 ^ 32 →
      x + n * (x % 2 ^ 32 * (Montgomery32.new n).np % 2 ^ 32) < 2 ^ 64 →
      2 ^ 32 ∣ x + n * (x % 2 ^ 32 * (Montgomery32.new n).np % 2 ^ 32) ∧
      (x + n * (x % 2 ^ 32 * (Montgomery32.new n).np % 2 ^ 32)) / 2 ^ 32 < 2 * n ∧
      (Montgomery32.new n).reduction x < n ∧
      (Montgomery32.new n).reduction x * 2 ^ 32 ≡ x [MOD n] ∧
      ∀ v, v < n → v * 2 ^ 32 ≡ x [MOD n] →
        v = (Montgomery32.new n).reduction x) ∧
    (∀ n x : ℤ, n % 2 = 1 → 0 < n → 0 ≤ x → x < n * 2 ^ bits n →
      (2 : ℤ) ^ bits n ∣
        x % 2 ^ bits n * (Montgomery.new n).np % 2 ^ bits n * n + x ∧
      (x % 2 ^ bits n * (Montgomery.new n).np % 2 ^ bits n * n + x) / 2 ^ bits n <
        2 * n ∧
      0 ≤ (Montgomery.new n).reduction x ∧ (Montgomery.new n).reduction x < n ∧
      (Montgomery.new n).reduction x * 2 ^ bits n ≡ x [ZMOD n] ∧
      ∀ v : ℤ, 0 ≤ v → v < n → v * 2 ^ bits n ≡ x [ZMOD n] →
        v = (Montgomery.new n).reduction x) := by
  refine ⟨?_, ?_, ?_⟩
  · intro n x ho hnR hx hov
    have hn : 0 < n := by omega
    have hnp : 2 ^ 64 ∣ n * (Montgomery64.new n).np + 1 :=
      calc_n_prime64_spec n ho hnR
    have hco : Nat.Coprime n (2 ^ 64) := odd_coprime_two_pow n 64 ho
    obtain ⟨d1, d2, -, -⟩ :=
      redc_spec (2 ^ 64) n (Montgomery64.new n).np x _ _ _ hn hnR hnp hx
        rfl rfl rfl
    obtain ⟨r1, r2⟩ :=
      reduction64_spec (Montgomery64.new n) x hn hnR hnp hx hov
    refine ⟨d1, d2, r1, r2, ?_⟩
    intro v hv hveq
    exact montgomery_unique n (2 ^ 64) v ((Montgomery64.new n).reduction x)
      hco hv r1 (hveq.trans r2.symm)
  · intro n x ho hnR hx hov
    have hn : 0 < n := by omega
    have hnp : 2 ^ 32 ∣ n * (Montgomery32.new n).np + 1 :=
      calc_n_prime32_spec n ho hnR
    have hco : Nat.Coprime n (2 ^ 32) := odd_coprime_two_pow n 32 ho
    obtain ⟨d1, d2, -, -⟩ :=
      redc_spec (2 ^ 32) n (Montgomery32.new n).np x _ _ _ hn hnR hnp hx
        rfl rfl rfl
    obtain ⟨r1, r2⟩ :=
      reduction32_spec (Montgomery32.new n) x hn hnR hnp hx hov
    refine ⟨d1, d2, r1, r2, ?_⟩
    intro v hv hveq
    exact montgomery_unique n (2 ^ 32) v ((Montgomery32.new n).reduction x)
      hco hv r1 (hveq.trans r2.symm)
  · intro n x ho hn hx0 hx
    have hnR : n < 2 ^ bits n := bits_spec n hn.le
    obtain ⟨hnp0, hnplt, hnpd⟩ := calc_n_primeG_spec n ho hn (bits n)
    have hg : Int.gcd n (2 ^ bits n) = 1 := int_gcd_two_pow n ho hn (bits n)
    obtain ⟨d2, -, -, -⟩ :=
      redc_spec_int (2 ^ bits n) n (Montgomery.new n).np x _ _ _ hn hnR hnpd
        hx0 hx rfl rfl rfl
    have hdvd : (2 : ℤ) ^ bits n ∣
        x % 2 ^ bits n * (Montgomery.new n).np % 2 ^ bits n * n + x := by
      have h1 : x % 2 ^ bits n * (Montgomery.new n).np % 2 ^ bits n ≡
          x * (Montgomery.new n).np [ZMOD 2 ^ bits n] :=
        (Int.mod_modEq _ _).trans ((Int.mod_modEq x _).mul_right _)
      have h2 : x % 2 ^ bits n * (Montgomery.new n).np % 2 ^ bits n * n + x ≡
          x * (Montgomery.new n).np * n + x [ZMOD 2 ^ bits n] :=
        (h1.mul_right n).add_right x
      have h3 : x * (Montgomery.new n).np * n + x =
          x * (n * (Montgomery.new n).np + 1) := by ring
      have h4 : (2 : ℤ) ^ bits n ∣ x * (n * (Montgomery.new n).np + 1) :=
        Dvd.dvd.mul_left hnpd x
      exact Int.modEq_zero_iff_dvd.mp
        (h2.trans (h3 ▸ Int.modEq_zero_iff_dvd.mpr h4))
    obtain ⟨g0, g1, g2⟩ :=
      reductionG_spec (Montgomery.new n) x hn rfl hnR hnp0 hnpd hx0 hx
    refine ⟨hdvd, d2, g0, g1, g2, ?_⟩
    intro v hv0 hv hveq
    exact montgomery_unique_int n (2 ^ bits n) v ((Montgomery.new n).reduction x)
      hn hg hv0 hv g0 g1 (hveq.trans g2.symm)

/-- Counterexample to C2 as stated: for the odd 64-bit modulus
`N = 12020311109887474303` and input
`X = 132688589762694705897095841933153548164 < N * 2^64`, the `u128`
intermediate wraps and `reduction(X)` returns `640433086212176401`,
which is not congruent to `X * R^-1`: its product with `R = 2^64` is
not congruent to `X` modulo `N`. -/
theorem claim_C2_counterexample :
    (12020311109887474303 : ℕ) % 2 = 1 ∧
    (12020311109887474303 : ℕ) < 2 ^ 64 ∧
    (132688589762694705897095841933153548164 : ℕ) <
      12020311109887474303 * 2 ^ 64 ∧
    (Montgomery64.new 12020311109887474303).reduction
      132688589762694705897095841933153548164 = 640433086212176401 ∧
    ¬ (640433086212176401 * 2 ^ 64 % 12020311109887474303 =
       132688589762694705897095841933153548164 % 12020311109887474303) :=
  ⟨by norm_num, by norm_num, by norm_num, by rfl, by decide⟩

/-- Witness for the amended C2 at `n = 57`, `x = 100` (64-bit),
`n = 89`, `x = 100` (32-bit) and `n = 57`, `x = 100` (generic). -/
theorem claim_C2_witness :
    ((57 : ℕ) % 2 = 1 ∧ (57 : ℕ) < 2 ^ 64 ∧ (100 : ℕ) < 57 * 2 ^ 64 ∧
      100 + 57 * (100 % 2 ^ 64 * (Montgomery64.new 57).np % 2 ^ 64) < 2 ^ 128 ∧
      (Montgomery64.new 57).reduction 100 < 57 ∧
      (Montgomery64.new 57).reduction 100 * 2 ^ 64 ≡ 100 [MOD 57]) ∧
    ((89 : ℕ) % 2 = 1 ∧ (89 : ℕ) < 2 ^ 32 ∧ (100 : ℕ) < 89 * 2 ^ 32 ∧
      100 + 89 * (100 % 2 ^ 32 * (Montgomery32.new 89).np % 2 ^ 32) < 2 ^ 64 ∧
      (Montgomery32.new 89).reduction 100 < 89 ∧
      (Montgomery32.new 89).reduction 100 * 2 ^ 32 ≡ 100 [MOD 89]) ∧
    ((57 : ℤ) % 2 = 1 ∧ (0 : ℤ) < 57 ∧ (0 : ℤ) ≤ 100 ∧
      (100 : ℤ) < 57 * 2 ^ bits 57 ∧
      (Montgomery.new 57).reduction 100 < 57 ∧
      (Montgomery.new 57).reduction 100 * 2 ^ bits 57 ≡ 100 [ZMOD 57]) := by
  have h64 := claim_C2.1 57 100 (by norm_num) (by norm_num) (by norm_num)
    (by decide)
  have h32 := claim_C2.2.1 89 100 (by norm_num) (by norm_num) (by norm_num)
    (by decide)
  have hG := claim_C2.2.2 57 100 (by norm_num) (by norm_num) (by norm_num)
    (by decide)
  exact ⟨⟨by norm_num, by norm_num, by norm_num, by decide,
      h64.2.2.1, h64.2.2.2.1⟩,
    ⟨by norm_num, by norm_num, by norm_num, by decide,
      h32.2.2.1, h32.2.2.2.1⟩,
    ⟨by norm_num, by norm_num, by norm_num, by decide,
      hG.2.2.2.1, hG.2.2.2.2.1⟩⟩

end ModuloTools
